import Mathlib

/-!
Verification of the intrusive doubly-linked list repository.

The repository holds two realizations of the same container:
  * `src/intrusive_list.h`   (namespace suffix `A` below)
  * `src/unnamed/part_000`   (namespace suffix `B` below)

Both thread raw `prev`/`next` pointers through `list_element` hooks embedded
in the elements.  We model memory as a total map from addresses (`Nat`) to
nodes carrying two nullable pointers (`Option Ptr`), and translate every
member function statement by statement: each C++ pointer read is a read of
the current heap, each pointer write is a functional heap update.  A null
pointer dereference (undefined behavior in the source) makes the modelled
operation return `none`.
-/

set_option autoImplicit false

namespace Intrusive

/-- A memory address.  `list_element*` values are `Option Ptr`,
with `none` standing for `nullptr`. -/
abbrev Ptr := Nat

/-- The `list_element` hook: a `prev` and a `next` pointer. -/
structure Node where
  prev : Option Ptr
  next : Option Ptr
deriving DecidableEq

/-- Memory: every address holds a node. -/
abbrev Heap := Ptr → Node

/-- `a->prev = v` -/
def setPrev (h : Heap) (a : Ptr) (v : Option Ptr) : Heap :=
  fun b => if b = a then { h a with prev := v } else h b

/-- `a->next = v` -/
def setNext (h : Heap) (a : Ptr) (v : Option Ptr) : Heap :=
  fun b => if b = a then { h a with next := v } else h b

theorem setPrev_next (h : Heap) (a : Ptr) (v : Option Ptr) (b : Ptr) :
    ((setPrev h a v) b).next = (h b).next := by
  unfold setPrev
  by_cases hb : b = a
  · subst hb; simp
  · simp [hb]

theorem setNext_prev (h : Heap) (a : Ptr) (v : Option Ptr) (b : Ptr) :
    ((setNext h a v) b).prev = (h b).prev := by
  unfold setNext
  by_cases hb : b = a
  · subst hb; simp
  · simp [hb]

theorem setPrev_at (h : Heap) (a : Ptr) (v : Option Ptr) :
    ((setPrev h a v) a).prev = v := by
  simp [setPrev]

theorem setNext_at (h : Heap) (a : Ptr) (v : Option Ptr) :
    ((setNext h a v) a).next = v := by
  simp [setNext]

theorem setPrev_other (h : Heap) (a : Ptr) (v : Option Ptr) (b : Ptr) (hb : b ≠ a) :
    (setPrev h a v) b = h b := by
  simp [setPrev, hb]

theorem setNext_other (h : Heap) (a : Ptr) (v : Option Ptr) (b : Ptr) (hb : b ≠ a) :
    (setNext h a v) b = h b := by
  simp [setNext, hb]

/-!  ## `list_element::unlink`, both realizations

`intrusive_list.h`:
```
void unlink() {
    if (prev != nullptr) { prev->next = next; }
    if (next != nullptr) { next->prev = prev; }
}
```
`part_000`:
```
void unlink() {
    if (prev != nullptr) { prev->next = next; next = nullptr; }
    if (next != nullptr) { next->prev = prev; prev = nullptr; }
}
```
Each `if` re-reads the fields from the heap current at that statement. -/

/-- `unlink` from `src/intrusive_list.h`. -/
def unlinkA (h : Heap) (x : Ptr) : Heap :=
  let h1 := match (h x).prev with
    | some p => setNext h p ((h x).next)
    | none => h
  match (h1 x).next with
  | some n => setPrev h1 n ((h1 x).prev)
  | none => h1

/-- `unlink` from `src/unnamed/part_000`. -/
def unlinkB (h : Heap) (x : Ptr) : Heap :=
  let h1 := match (h x).prev with
    | some p => setNext (setNext h p ((h x).next)) x none
    | none => h
  match (h1 x).next with
  | some n => setPrev (setPrev h1 n ((h1 x).prev)) x none
  | none => h1

/-!  ## Chains as lists of addresses

`linked h pv xs tl` says the nodes at the addresses in `xs` form a doubly
linked segment in `h`: the first node's `prev` is `pv`, consecutive nodes
point at each other both ways, and the last node's `next` is `tl`. -/

def linked (h : Heap) : Option Ptr → List Ptr → Ptr → Prop
  | _, [], _ => True
  | pv, x :: rest, tl =>
      (h x).prev = pv ∧ (h x).next = some (rest.headD tl) ∧ linked h (some x) rest tl

instance linkedDec (h : Heap) (tl : Ptr) :
    (pv : Option Ptr) → (xs : List Ptr) → Decidable (linked h pv xs tl)
  | _, [] => isTrue trivial
  | pv, x :: rest =>
      letI : Decidable (linked h (some x) rest tl) := linkedDec h tl (some x) rest
      decidable_of_iff
        ((h x).prev = pv ∧ (h x).next = some (rest.headD tl) ∧ linked h (some x) rest tl)
        Iff.rfl

/-- The last member of a segment, if any. -/
def lastOpt : List Ptr → Option Ptr
  | [] => none
  | [x] => some x
  | _ :: y :: t => lastOpt (y :: t)

/-- The pointer stored in the `prev` field of whatever follows the segment
`xs` when the segment itself is preceded by `pv`. -/
def prevAfter (pv : Option Ptr) : List Ptr → Option Ptr
  | [] => pv
  | x :: rest => prevAfter (some x) rest

theorem prevAfter_append (pv : Option Ptr) (xs ys : List Ptr) :
    prevAfter pv (xs ++ ys) = prevAfter (prevAfter pv xs) ys := by
  induction xs generalizing pv with
  | nil => rfl
  | cons x rest ih => simpa [prevAfter] using ih (some x)

theorem prevAfter_cons_irrel (pv pv' : Option Ptr) (x : Ptr) (rest : List Ptr) :
    prevAfter pv (x :: rest) = prevAfter pv' (x :: rest) := rfl

theorem lastOpt_cons_eq_some (x : Ptr) (t : List Ptr) :
    ∃ b, lastOpt (x :: t) = some b := by
  induction t generalizing x with
  | nil => exact ⟨x, rfl⟩
  | cons y t ih => simpa [lastOpt] using ih y

theorem prevAfter_eq_lastOpt (pv : Option Ptr) (xs : List Ptr) :
    prevAfter pv xs = match lastOpt xs with
      | some b => some b
      | none => pv := by
  induction xs generalizing pv with
  | nil => rfl
  | cons x rest ih =>
      cases rest with
      | nil => rfl
      | cons y t =>
          obtain ⟨b, hb⟩ := lastOpt_cons_eq_some y t
          have := ih (some x)
          rw [show lastOpt (x :: y :: t) = lastOpt (y :: t) from rfl, hb] at *
          simpa [prevAfter, hb] using this

theorem lastOpt_concat (xs : List Ptr) (b : Ptr) : lastOpt (xs ++ [b]) = some b := by
  induction xs with
  | nil => rfl
  | cons x rest ih =>
      cases rest with
      | nil => rfl
      | cons y t => simpa [lastOpt] using ih

theorem prevAfter_concat (pv : Option Ptr) (xs : List Ptr) (b : Ptr) :
    prevAfter pv (xs ++ [b]) = some b := by
  rw [prevAfter_eq_lastOpt, lastOpt_concat]

theorem lastOpt_mem : ∀ {xs : List Ptr} {b : Ptr}, lastOpt xs = some b → b ∈ xs
  | [], _, h => by simp [lastOpt] at h
  | [x], b, h => by simp [lastOpt] at h; simp [h]
  | x :: y :: t, b, h => by
      have : b ∈ y :: t := lastOpt_mem (by simpa [lastOpt] using h)
      exact List.mem_cons_of_mem _ this

theorem headD_append (xs ys : List Ptr) (d : Ptr) :
    (xs ++ ys).headD d = xs.headD (ys.headD d) := by
  cases xs <;> rfl

/-- `linked` only reads the heap at the member addresses. -/
theorem linked_frame {h h' : Heap} :
    ∀ {pv : Option Ptr} {xs : List Ptr} {tl : Ptr},
      (∀ a ∈ xs, h' a = h a) → linked h pv xs tl → linked h' pv xs tl
  | _, [], _, _, _ => trivial
  | pv, x :: rest, tl, hagree, ⟨hp, hn, hrest⟩ => by
      refine ⟨?_, ?_, ?_⟩
      · rw [hagree x (List.mem_cons_self x rest)]; exact hp
      · rw [hagree x (List.mem_cons_self x rest)]; exact hn
      · exact linked_frame (fun a ha => hagree a (List.mem_cons_of_mem _ ha)) hrest

theorem linked_append {h : Heap} :
    ∀ {xs : List Ptr} {pv : Option Ptr} {ys : List Ptr} {tl : Ptr},
      linked h pv xs (ys.headD tl) → linked h (prevAfter pv xs) ys tl →
      linked h pv (xs ++ ys) tl
  | [], _, _, _, _, hy => hy
  | x :: rest, pv, ys, tl, ⟨hp, hn, hrest⟩, hy => by
      refine ⟨hp, ?_, ?_⟩
      · rw [show rest.append ys = rest ++ ys from rfl, headD_append]; exact hn
      · exact linked_append hrest hy

theorem linked_split {h : Heap} :
    ∀ {xs : List Ptr} {pv : Option Ptr} {ys : List Ptr} {tl : Ptr},
      linked h pv (xs ++ ys) tl →
      linked h pv xs (ys.headD tl) ∧ linked h (prevAfter pv xs) ys tl
  | [], _, _, _, hy => ⟨trivial, hy⟩
  | x :: rest, pv, ys, tl, ⟨hp, hn, hrest⟩ => by
      obtain ⟨h1, h2⟩ := linked_split hrest
      refine ⟨⟨hp, ?_, h1⟩, h2⟩
      rw [show rest.append ys = rest ++ ys from rfl, headD_append] at hn; exact hn

/-- Rewire a segment: the head's `prev` may change to `pv'`, the last
member's `next` may be retargeted to `tl'`, everything else about the
members is unchanged.  The segment stays linked. -/
theorem linked_boundary {h h' : Heap} :
    ∀ {xs : List Ptr} {pv pv' : Option Ptr} {tl tl' : Ptr},
      linked h pv xs tl → xs.Nodup →
      (∀ a ∈ xs.head?, (h' a).prev = pv') →
      (∀ a ∈ lastOpt xs, (h' a).next = some tl') →
      (∀ a ∈ xs, xs.head? ≠ some a → (h' a).prev = (h a).prev) →
      (∀ a ∈ xs, lastOpt xs ≠ some a → (h' a).next = (h a).next) →
      linked h' pv' xs tl'
  | [], _, _, _, _, _, _, _, _, _, _ => trivial
  | [x], pv, pv', tl, tl', ⟨_, _, _⟩, _, hhead, hlast, _, _ => by
      refine ⟨hhead x rfl, ?_, trivial⟩
      simpa using hlast x rfl
  | x :: y :: t, pv, pv', tl, tl', ⟨hp, hn, hrest⟩, hnd, hhead, hlast, hmidp, hmidn => by
      have hxny : x ∉ y :: t := (List.nodup_cons.mp hnd).1
      have hlcc : lastOpt (x :: y :: t) = lastOpt (y :: t) := rfl
      obtain ⟨g, hg⟩ := lastOpt_cons_eq_some y t
      have hgx : g ≠ x := fun hc => hxny (hc ▸ lastOpt_mem hg)
      have hyx : y ≠ x := fun hc => hxny (hc ▸ List.mem_cons_self y t)
      refine ⟨hhead x rfl, ?_, ?_⟩
      · have := hmidn x (List.mem_cons_self x _) (by rw [hlcc, hg]; simpa using hgx)
        rw [this]; simpa using hn
      · refine linked_boundary hrest (List.nodup_cons.mp hnd).2 ?_ ?_ ?_ ?_
        · intro a ha
          have hay : a = y := by simpa [eq_comm] using ha
          rw [hay,
            hmidp y (List.mem_cons_of_mem _ (List.mem_cons_self y t))
              (by simpa using Ne.symm hyx)]
          exact hrest.1
        · intro a ha
          rw [← hlcc] at ha
          exact hlast a ha
        · intro a ha _
          have hax : x ≠ a := fun hc => hxny (hc ▸ ha)
          exact hmidp a (List.mem_cons_of_mem _ ha) (by simpa using hax)
        · intro a ha hne
          rw [← hlcc] at hne
          exact hmidn a (List.mem_cons_of_mem _ ha) hne

/-- Forward iteration: follow `next` from `cur` until reaching `stop`,
collecting the visited addresses; `none` if `stop` is not reached within
`fuel` steps or a null pointer is followed. -/
def traverse (h : Heap) : Nat → Ptr → Ptr → Option (List Ptr)
  | 0, cur, stop => if cur = stop then some [] else none
  | fuel + 1, cur, stop =>
      if cur = stop then some [] else
        match (h cur).next with
        | none => none
        | some n => (traverse h fuel n stop).map (cur :: ·)

theorem linked_traverse {h : Heap} :
    ∀ {xs : List Ptr} {pv : Option Ptr} {tl : Ptr},
      linked h pv xs tl → tl ∉ xs →
      traverse h xs.length (xs.headD tl) tl = some xs
  | [], _, tl, _, _ => by simp [traverse]
  | x :: rest, pv, tl, ⟨hp, hn, hrest⟩, htl => by
      have hxtl : x ≠ tl := fun hc => htl (hc ▸ List.mem_cons_self x rest)
      have ih := linked_traverse hrest (fun hc => htl (List.mem_cons_of_mem _ hc))
      simp only [List.headD_cons, List.length_cons, traverse, if_neg hxtl, hn]
      rw [ih]
      rfl

/-!  ## The list of `src/intrusive_list.h`

`struct list` holds `list_element<Tag> *first` (null when empty) and an
embedded sentinel `list_element<Tag> after_last` whose `prev` points at the
last member.  We place the sentinel node in the heap at address `sent`;
`first` is the struct's pointer field. -/

structure ListA where
  first : Option Ptr
  sent : Ptr
deriving DecidableEq

/-- `clear`: `first = after_last.prev = nullptr;` -/
def clearA (h : Heap) (c : ListA) : Heap × ListA :=
  (setPrev h c.sent none, { c with first := none })

def emptyA (c : ListA) : Prop := c.first = none

instance emptyADec (c : ListA) : Decidable (emptyA c) := by
  unfold emptyA; infer_instance

/-- `begin`: `if (first == nullptr) return end(); return iterator(first);` -/
def beginA (c : ListA) : Ptr :=
  match c.first with
  | none => c.sent
  | some f => f

def endA (c : ListA) : Ptr := c.sent

/-- `front` returns `*first`; `back` returns `*after_last.prev`
(dereferencing null is undefined behavior). -/
def frontA (c : ListA) : Option Ptr := c.first

def backA (h : Heap) (c : ListA) : Option Ptr := (h c.sent).prev

/-- Forward iteration sequence `begin() .. end()` with `fuel` steps allowed. -/
def seqA (h : Heap) (c : ListA) (fuel : Nat) : Option (List Ptr) :=
  traverse h fuel (beginA c) c.sent

/-- `push_back`:
```
if (after_last.prev != nullptr) { after_last.prev->next = p; p->prev = after_last.prev; }
after_last.prev = p; p->next = &after_last;
if (first == nullptr) { first = after_last.prev; }
```
-/
def pushBackA (h : Heap) (c : ListA) (x : Ptr) : Heap × ListA :=
  let h1 := match (h c.sent).prev with
    | some l => setPrev (setNext h l (some x)) x (some l)
    | none => h
  let h2 := setNext (setPrev h1 c.sent (some x)) x (some c.sent)
  let c1 := if c.first = none then { c with first := (h2 c.sent).prev } else c
  (h2, c1)

/-- `push_front`:
```
p->prev = nullptr;
if (first != nullptr) { first->prev = p; p->next = first; }
first = p;
if (after_last.prev == nullptr) { after_last.prev = first; }
```
-/
def pushFrontA (h : Heap) (c : ListA) (x : Ptr) : Heap × ListA :=
  let h1 := setPrev h x none
  let h2 := match c.first with
    | some f => setNext (setPrev h1 f (some x)) x (some f)
    | none => h1
  let c1 := { c with first := some x }
  if (h2 c1.sent).prev = none then (setPrev h2 c1.sent c1.first, c1) else (h2, c1)

/-- `pop_back`:
```
if (after_last.prev != nullptr && after_last.prev->prev != nullptr) {
    after_last.prev->prev->next = &after_last;
    after_last.prev = after_last.prev->prev;
} else { clear(); }
```
(The re-read of `after_last.prev->prev` in the second statement goes through
a heap whose only change was a `next` field, so it yields `ll` again.) -/
def popBackA (h : Heap) (c : ListA) : Heap × ListA :=
  match (h c.sent).prev with
  | none => clearA h c
  | some l =>
      match (h l).prev with
      | none => clearA h c
      | some ll =>
          let h1 := setNext h ll (some c.sent)
          (setPrev h1 c.sent (some ll), c)

/-- `pop_front`:
```
if (first != nullptr && first->next != nullptr) {
    first->next->prev = nullptr;
    first = first->next;
} else { clear(); }
```
(The re-read of `first->next` goes through a heap whose only change was a
`prev` field, so it yields `fn` again.) -/
def popFrontA (h : Heap) (c : ListA) : Heap × ListA :=
  match c.first with
  | none => clearA h c
  | some f =>
      match (h f).next with
      | none => clearA h c
      | some fn =>
          let h1 := setPrev h fn none
          (h1, { c with first := some fn })

/-- `insert`:
```
if (p->prev != nullptr) { p->prev->next = new_el; } else { first = new_el; }
new_el->prev = p->prev;
p->prev = new_el;
new_el->next = p;
return iterator(new_el);
```
(The second read of `p->prev` goes through a heap whose only change was a
`next` field, so it equals the first read.) -/
def insertA (h : Heap) (c : ListA) (pos x : Ptr) : Heap × ListA × Ptr :=
  let s := match (h pos).prev with
    | some pp => (setNext h pp (some x), c)
    | none => (h, { c with first := some x })
  let h2 := setPrev s.1 x ((h pos).prev)
  let h3 := setPrev h2 pos (some x)
  let h4 := setNext h3 x (some pos)
  (h4, s.2, x)

/-- `erase`:
```
if (pos != end()) {
    auto *p = ...;
    p->next->prev = p->prev;
    if (p->prev != nullptr) { p->prev->next = p->next; } else { first = p->next; }
    return iterator(p->next);
}
return end();
```
A null `p->next` is dereferenced: undefined behavior, modelled as `none`.
The guard `p->prev` is re-read from the updated heap (faithful: the first
statement may alias it); the occurrences of `p->next` after the first
statement provably still read `n`, since only `prev` fields were written,
or were overwritten with the same value. -/
def eraseA (h : Heap) (c : ListA) (pos : Ptr) : Option (Heap × ListA × Ptr) :=
  if pos = c.sent then some (h, c, c.sent)
  else
    match (h pos).next with
    | none => none
    | some n =>
        let h1 := setPrev h n ((h pos).prev)
        let s := match (h1 pos).prev with
          | some pp => (setNext h1 pp (some n), c)
          | none => (h1, { c with first := some n })
        some (s.1, s.2, n)

/-- `splice`:
```
if (it1 == it2) { return; }
auto *after_incision = it0.current; auto *from = it1.current; auto *to = it2.current;
if (from->prev != nullptr) { from->prev->next = to; }
else { if (it2 != donor.end()) { donor.first = to; } else { donor.first = nullptr; } }
if (after_incision->prev != nullptr) { after_incision->prev->next = from; }
else { first = from; }
auto *before_incision = after_incision->prev;
after_incision->prev = to->prev;
to->prev->next = after_incision;
to->prev = from->prev;
from->prev = before_incision;
```
Every pointer is re-read from the heap current at its statement; a null
`to->prev` is dereferenced (undefined behavior), modelled as `none`.
The receiver and the donor are taken and returned as separate structs,
faithful when they are distinct lists, or when (as in a self-splice with
both boundary `prev`s non-null) neither `first` field is written. -/
def spliceA (h : Heap) (recv : ListA) (it0 : Ptr) (donor : ListA) (it1 it2 : Ptr) :
    Option (Heap × ListA × ListA) :=
  if it1 = it2 then some (h, recv, donor)
  else
    let d := match (h it1).prev with
      | some fp => (setNext h fp (some it2), donor)
      | none => (h, { donor with first := if it2 = donor.sent then none else some it2 })
    let r := match (d.1 it0).prev with
      | some bi => (setNext d.1 bi (some it1), recv)
      | none => (d.1, { recv with first := some it1 })
    let before_incision := (r.1 it0).prev
    let h3 := setPrev r.1 it0 ((r.1 it2).prev)
    match (h3 it2).prev with
    | none => none
    | some tp =>
        let h4 := setNext h3 tp (some it0)
        let h5 := setPrev h4 it2 ((h4 it1).prev)
        let h6 := setPrev h5 it1 before_incision
        some (h6, r.2, d.2)

/-- move assignment `operator=(list&&)`:
```
first = other.first;
after_last.prev = other.after_last.prev;
if (after_last.prev != nullptr) { after_last.prev->next = &after_last; }
other.after_last.prev = other.first = nullptr;
```
-/
def moveAssignA (h : Heap) (tgt other : ListA) : Heap × ListA × ListA :=
  let tgt1 := { tgt with first := other.first }
  let h1 := setPrev h tgt.sent ((h other.sent).prev)
  let h2 := match (h1 tgt.sent).prev with
    | some l => setNext h1 l (some tgt.sent)
    | none => h1
  (setPrev h2 other.sent none, tgt1, { other with first := none })

/-- The move constructor delegates to the move assignment:
`list(list &&other) { operator=(std::move(other)); }` on a
default-constructed (empty) list. -/
def moveConsA (h : Heap) (tgt other : ListA) : Heap × ListA × ListA :=
  moveAssignA h tgt other

/-- A member sequence is faithfully represented: `first` points at the head,
the members are doubly linked ending at the sentinel, the sentinel's `prev`
points back at the last member, the addresses are distinct and distinct
from the sentinel. -/
def repA (h : Heap) (c : ListA) (xs : List Ptr) : Prop :=
  c.first = xs.head? ∧ linked h none xs c.sent ∧
    (h c.sent).prev = prevAfter none xs ∧ xs.Nodup ∧ c.sent ∉ xs

instance repADec (h : Heap) (c : ListA) (xs : List Ptr) : Decidable (repA h c xs) := by
  unfold repA; infer_instance

/-!  ## The list of `src/unnamed/part_000`

Same data, but `first` is a plain pointer initialised to `&after_last`:
an empty list has `first == &after_last`. -/

structure ListB where
  first : Ptr
  sent : Ptr
deriving DecidableEq

/-- `clear`: `first = &after_last; after_last.prev = nullptr;` -/
def clearB (h : Heap) (c : ListB) : Heap × ListB :=
  (setPrev h c.sent none, { c with first := c.sent })

def emptyB (c : ListB) : Prop := c.first = c.sent

instance emptyBDec (c : ListB) : Decidable (emptyB c) := by
  unfold emptyB; infer_instance

/-- `begin`: `return iterator(first);` -/
def beginB (c : ListB) : Ptr := c.first

def endB (c : ListB) : Ptr := c.sent

def frontB (c : ListB) : Ptr := c.first

def backB (h : Heap) (c : ListB) : Option Ptr := (h c.sent).prev

def seqB (h : Heap) (c : ListB) (fuel : Nat) : Option (List Ptr) :=
  traverse h fuel (beginB c) c.sent

/-- `insert`: textually identical to the one of `intrusive_list.h`,
except that `first` is a plain pointer. -/
def insertB (h : Heap) (c : ListB) (pos x : Ptr) : Heap × ListB × Ptr :=
  let s := match (h pos).prev with
    | some pp => (setNext h pp (some x), c)
    | none => (h, { c with first := x })
  let h2 := setPrev s.1 x ((h pos).prev)
  let h3 := setPrev h2 pos (some x)
  let h4 := setNext h3 x (some pos)
  (h4, s.2, x)

/-- `erase`: textually identical to the one of `intrusive_list.h`,
except that `first` is a plain pointer. -/
def eraseB (h : Heap) (c : ListB) (pos : Ptr) : Option (Heap × ListB × Ptr) :=
  if pos = c.sent then some (h, c, c.sent)
  else
    match (h pos).next with
    | none => none
    | some n =>
        let h1 := setPrev h n ((h pos).prev)
        let s := match (h1 pos).prev with
          | some pp => (setNext h1 pp (some n), c)
          | none => (h1, { c with first := n })
        some (s.1, s.2, n)

/-- `push_back(elem)`: `insert(end(), elem);` -/
def pushBackB (h : Heap) (c : ListB) (x : Ptr) : Heap × ListB :=
  let s := insertB h c (endB c) x
  (s.1, s.2.1)

/-- `push_front(elem)`: `insert(begin(), elem);` -/
def pushFrontB (h : Heap) (c : ListB) (x : Ptr) : Heap × ListB :=
  let s := insertB h c (beginB c) x
  (s.1, s.2.1)

/-- `pop_back()`: `erase(const_iterator(after_last.prev));` — on an empty
list this constructs an iterator over `nullptr` which `erase` then
dereferences: undefined behavior, modelled as `none`. -/
def popBackB (h : Heap) (c : ListB) : Option (Heap × ListB) :=
  match (h c.sent).prev with
  | none => none
  | some l => (eraseB h c l).map (fun s => (s.1, s.2.1))

/-- `pop_front()`: `erase(begin());` -/
def popFrontB (h : Heap) (c : ListB) : Option (Heap × ListB) :=
  (eraseB h c (beginB c)).map (fun s => (s.1, s.2.1))

/-- `splice`: textually identical to the one of `intrusive_list.h` except
for the empty-donor representative: `donor.first = &donor.after_last;`. -/
def spliceB (h : Heap) (recv : ListB) (it0 : Ptr) (donor : ListB) (it1 it2 : Ptr) :
    Option (Heap × ListB × ListB) :=
  if it1 = it2 then some (h, recv, donor)
  else
    let d := match (h it1).prev with
      | some fp => (setNext h fp (some it2), donor)
      | none => (h, { donor with first := if it2 = donor.sent then donor.sent else it2 })
    let r := match (d.1 it0).prev with
      | some bi => (setNext d.1 bi (some it1), recv)
      | none => (d.1, { recv with first := it1 })
    let before_incision := (r.1 it0).prev
    let h3 := setPrev r.1 it0 ((r.1 it2).prev)
    match (h3 it2).prev with
    | none => none
    | some tp =>
        let h4 := setNext h3 tp (some it0)
        let h5 := setPrev h4 it2 ((h4 it1).prev)
        let h6 := setPrev h5 it1 before_incision
        some (h6, r.2, d.2)

/-- move assignment `operator=(list&&)`:
`clear(); splice(begin(), other, other.begin(), other.end());` -/
def moveAssignB (h : Heap) (tgt other : ListB) : Option (Heap × ListB × ListB) :=
  let s := clearB h tgt
  spliceB s.1 s.2 (beginB s.2) other (beginB other) (endB other)

/-- move constructor: on a default-constructed list (where `first` already
is `&after_last` and `after_last` is zeroed),
`splice(begin(), other, other.begin(), other.end());` -/
def moveConsB (h : Heap) (tgt other : ListB) : Option (Heap × ListB × ListB) :=
  spliceB h tgt (beginB tgt) other (beginB other) (endB other)

/-- Faithful representation of a member sequence for `part_000`. -/
def repB (h : Heap) (c : ListB) (xs : List Ptr) : Prop :=
  c.first = xs.headD c.sent ∧ linked h none xs c.sent ∧
    (h c.sent).prev = prevAfter none xs ∧ xs.Nodup ∧ c.sent ∉ xs

instance repBDec (h : Heap) (c : ListB) (xs : List Ptr) : Decidable (repB h c xs) := by
  unfold repB; infer_instance

/-!  ## Generic facts about represented chains -/

theorem linked_last_next {h : Heap} :
    ∀ {xs : List Ptr} {pv : Option Ptr} {tl : Ptr},
      linked h pv xs tl → ∀ g ∈ lastOpt xs, (h g).next = some tl
  | [], _, _, _, g, hg => by simp [lastOpt] at hg
  | [x], _, tl, ⟨_, hn, _⟩, g, hg => by
      have : x = g := by simpa [lastOpt] using hg
      subst this; simpa using hn
  | x :: y :: t, _, tl, ⟨_, _, hrest⟩, g, hg =>
      linked_last_next hrest g (by simpa [lastOpt] using hg)

theorem linked_head_prev {h : Heap} {xs : List Ptr} {pv : Option Ptr} {tl : Ptr}
    (hl : linked h pv xs tl) : ∀ y ∈ xs.head?, (h y).prev = pv := by
  cases xs with
  | nil => intro y hy; simp at hy
  | cons z t =>
      intro y hy
      have : z = y := by simpa using hy
      subst this
      exact hl.1

/-- A represented chain's forward iteration from `begin()` to `end()`
visits exactly the member sequence. -/
theorem repA_seq {h : Heap} {c : ListA} {xs : List Ptr} (hrep : repA h c xs) :
    seqA h c xs.length = some xs := by
  obtain ⟨hf, hl, _, _, hs⟩ := hrep
  cases xs with
  | nil =>
      unfold seqA beginA
      rw [hf]
      simp [traverse]
  | cons y t =>
      unfold seqA beginA
      rw [hf]
      simpa using linked_traverse hl hs

theorem head?_mem {xs : List Ptr} {y : Ptr} (hy : xs.head? = some y) : y ∈ xs := by
  cases xs with
  | nil => simp at hy
  | cons z t =>
      have : z = y := by simpa using hy
      exact this ▸ List.mem_cons_self z t

/-- The heap after bypassing one member `x` whose predecessor is `bo` and
whose successor is `n`: the successor's `prev` is redirected to `bo`, and,
when a predecessor exists, its `next` is redirected to `n`.  Both `erase`
and a successful `unlink` produce exactly this heap. -/
def exciseHeap (h : Heap) (bo : Option Ptr) (n : Ptr) : Heap :=
  match bo with
  | none => setPrev h n none
  | some b => setNext (setPrev h n (some b)) b (some n)

/-- Excising a member from a represented chain keeps the remainder linked,
keeps the sentinel's back pointer right, and leaves the excised node's own
fields untouched. -/
theorem excise_linked {h : Heap} {l₁ l₂ : List Ptr} {x sent : Ptr}
    (hl : linked h none (l₁ ++ x :: l₂) sent)
    (hsp : (h sent).prev = prevAfter none (l₁ ++ x :: l₂))
    (hnd : (l₁ ++ x :: l₂).Nodup) (hsent : sent ∉ l₁ ++ x :: l₂) :
    (h x).prev = prevAfter none l₁ ∧
    (h x).next = some (l₂.headD sent) ∧
    linked (exciseHeap h (prevAfter none l₁) (l₂.headD sent)) none (l₁ ++ l₂) sent ∧
    ((exciseHeap h (prevAfter none l₁) (l₂.headD sent)) sent).prev =
      prevAfter none (l₁ ++ l₂) ∧
    (exciseHeap h (prevAfter none l₁) (l₂.headD sent)) x = h x := by
  obtain ⟨ndl₁, ndx₂, hdisj⟩ := List.nodup_append.mp hnd
  obtain ⟨hx_nl₂, ndl₂⟩ := List.nodup_cons.mp ndx₂
  have hx_nl₁ : x ∉ l₁ := fun hc => hdisj hc (List.mem_cons_self x l₂)
  have hdisj12 : ∀ a ∈ l₁, a ∉ l₂ := fun a ha hb => hdisj ha (List.mem_cons_of_mem _ hb)
  have hs1 : sent ∉ l₁ := fun hc => hsent (List.mem_append.mpr (Or.inl hc))
  have hsx : sent ≠ x := fun hc =>
    hsent (List.mem_append.mpr (Or.inr (hc ▸ List.mem_cons_self x l₂)))
  have hs2 : sent ∉ l₂ := fun hc =>
    hsent (List.mem_append.mpr (Or.inr (List.mem_cons_of_mem _ hc)))
  obtain ⟨hl1, hl2'⟩ := linked_split hl
  simp only [List.headD_cons] at hl1
  obtain ⟨hxprev, hxnext, hl₂⟩ := hl2'
  have hn_mem : l₂.headD sent ∈ l₂ ∨ l₂ = [] := by
    cases l₂ with
    | nil => exact Or.inr rfl
    | cons y t => exact Or.inl (List.mem_cons_self y t)
  have hxn : x ≠ l₂.headD sent := by
    rcases hn_mem with hmem | hnil
    · exact fun hc => hx_nl₂ (hc ▸ hmem)
    · subst hnil; exact fun hc => hsx (hc.symm)
  have hn_nl₁ : l₂.headD sent ∉ l₁ := by
    rcases hn_mem with hmem | hnil
    · exact fun hc => hdisj12 _ hc hmem
    · subst hnil; simpa using hs1
  refine ⟨hxprev, hxnext, ?_⟩
  rcases List.eq_nil_or_concat l₁ with rfl | ⟨l, b, rfl⟩
  · -- the erased member was the first one: only the successor's prev changes
    simp only [prevAfter, exciseHeap, List.nil_append]
    refine ⟨?_, ?_, ?_⟩
    · -- the remainder l₂ stays linked
      cases l₂ with
      | nil => trivial
      | cons y t =>
          simp only [List.headD_cons]
          refine linked_boundary hl₂ ndl₂ ?_ ?_ ?_ ?_
          · intro a ha
            have hay : y = a := by simpa using ha
            subst hay
            exact setPrev_at h y none
          · intro g hg
            rw [setPrev_next]
            exact linked_last_next hl₂ g hg
          · intro a ha hne
            have hay : a ≠ y := fun hc => hne (by simp [hc])
            rw [setPrev_other h y none a hay]
          · intro a _ _
            rw [setPrev_next]
    · -- sentinel back pointer
      cases l₂ with
      | nil => simpa using setPrev_at h sent none
      | cons y t =>
          simp only [List.headD_cons]
          have hsy : sent ≠ y := fun hc => hs2 (hc ▸ List.mem_cons_self y t)
          rw [setPrev_other h y none sent hsy, hsp]
          simp only [List.nil_append, prevAfter]
    · -- the erased node is untouched
      cases l₂ with
      | nil => exact setPrev_other h _ none x hxn
      | cons y t => exact setPrev_other h _ none x hxn
  · -- the erased member had a predecessor b (the last member of l = l₁.dropLast)
    simp only [List.concat_eq_append] at *
    have hpa : prevAfter none (l ++ [b]) = some b := prevAfter_concat none l b
    rw [hpa]
    have hb_mem : b ∈ l ++ [b] := List.mem_append.mpr (Or.inr (List.mem_cons_self b []))
    have hbx : b ≠ x := fun hc => hx_nl₁ (hc ▸ hb_mem)
    have hbn : b ≠ l₂.headD sent := fun hc => hn_nl₁ (hc ▸ hb_mem)
    have hbs : b ≠ sent := fun hc => hs1 (hc ▸ hb_mem)
    have hb_nl₂ : b ∉ l₂ := hdisj12 b hb_mem
    simp only [exciseHeap]
    refine ⟨?_, ?_, ?_⟩
    · -- remainder (l ++ [b]) ++ l₂ stays linked
      refine linked_append ?_ ?_
      · -- prefix, retargeted at the successor of x
        refine linked_boundary hl1 ndl₁ ?_ ?_ ?_ ?_
        · intro a ha
          have haa := head?_mem ha
          have han : a ≠ l₂.headD sent := fun hc => hn_nl₁ (hc ▸ haa)
          rw [setNext_prev, setPrev_other h _ _ a han]
          exact linked_head_prev hl1 a ha
        · intro g hg
          rw [lastOpt_concat] at hg
          have : b = g := by simpa using hg
          subst this
          exact setNext_at _ b (some (l₂.headD sent))
        · intro a ha _
          have haa : a ∈ l ++ [b] := ha
          have han : a ≠ l₂.headD sent := fun hc => hn_nl₁ (hc ▸ haa)
          rw [setNext_prev, setPrev_other h _ _ a han]
        · intro a _ hne
          rw [lastOpt_concat] at hne
          have hab : a ≠ b := fun hc => hne (by simp [hc])
          rw [setNext_other _ b _ a hab, setPrev_next]
      · -- suffix l₂, its head's prev redirected to b
        rw [hpa]
        cases l₂ with
        | nil => trivial
        | cons y t =>
            simp only [List.headD_cons]
            refine linked_boundary hl₂ ndl₂ ?_ ?_ ?_ ?_
            · intro a ha
              have hay : y = a := by simpa using ha
              subst hay
              have hyb : y ≠ b := fun hc => hb_nl₂ (hc ▸ List.mem_cons_self y t)
              rw [setNext_other _ b _ y hyb]
              exact setPrev_at h y (some b)
            · intro g hg
              have hgmem := lastOpt_mem hg
              have hgb : g ≠ b := fun hc => hb_nl₂ (hc ▸ hgmem)
              rw [setNext_other _ b _ g hgb, setPrev_next]
              exact linked_last_next hl₂ g hg
            · intro a ha hne
              have hay : a ≠ y := fun hc => hne (by simp [hc])
              rw [setNext_prev, setPrev_other h y _ a hay]
            · intro a ha _
              have hab : a ≠ b := fun hc => hb_nl₂ (hc ▸ ha)
              rw [setNext_other _ b _ a hab, setPrev_next]
    · -- sentinel back pointer
      rw [setNext_prev]
      cases l₂ with
      | nil =>
          simp only [List.headD_nil]
          rw [setPrev_at h sent (some b)]
          rw [List.append_nil, hpa]
      | cons y t =>
          simp only [List.headD_cons]
          have hsy : sent ≠ y := fun hc => hs2 (hc ▸ List.mem_cons_self y t)
          rw [setPrev_other h y _ sent hsy, hsp]
          simp only [prevAfter_append, prevAfter]
    · -- the erased node is untouched
      rw [setNext_other _ b _ x (Ne.symm hbx), setPrev_other h _ _ x hxn]

theorem head?_skip_mid (l : List Ptr) (b x : Ptr) (l₂ : List Ptr) :
    ((l ++ [b]) ++ x :: l₂).head? = ((l ++ [b]) ++ l₂).head? := by
  cases l <;> rfl

theorem headD_skip_mid (l : List Ptr) (b x d : Ptr) (l₂ : List Ptr) :
    ((l ++ [b]) ++ x :: l₂).headD d = ((l ++ [b]) ++ l₂).headD d := by
  cases l <;> rfl

/-- Full behaviour of `erase` from `src/intrusive_list.h` at a member
position: it bypasses the member (whose own pointers stay as they were)
and returns the address of the following position.  The member sequence
becomes `l₁ ++ l₂`; the representation invariant survives whenever the
remainder is non-empty (erasing the sole member sets `first` to the
sentinel's address, not back to null). -/
theorem eraseA_spec {h : Heap} {c : ListA} {l₁ l₂ : List Ptr} {x : Ptr}
    (hrep : repA h c (l₁ ++ x :: l₂)) :
    ∃ h' c', eraseA h c x = some (h', c', l₂.headD c.sent) ∧
      h' x = h x ∧
      seqA h' c' (l₁ ++ l₂).length = some (l₁ ++ l₂) ∧
      (l₁ ++ l₂ ≠ [] → repA h' c' (l₁ ++ l₂)) := by
  obtain ⟨hf, hl, hsp, hnd, hsent⟩ := hrep
  obtain ⟨hxprev, hxnext, hlink', hsp', hx'⟩ := excise_linked hl hsp hnd hsent
  obtain ⟨ndl₁, ndx₂, hdisj⟩ := List.nodup_append.mp hnd
  have ndl₂ : l₂.Nodup := (List.nodup_cons.mp ndx₂).2
  have hx_nl₂ : x ∉ l₂ := (List.nodup_cons.mp ndx₂).1
  have hdisj12 : List.Disjoint l₁ l₂ :=
    fun a ha hb => hdisj ha (List.mem_cons_of_mem _ hb)
  have hnd' : (l₁ ++ l₂).Nodup := List.nodup_append.mpr ⟨ndl₁, ndl₂, hdisj12⟩
  have hsx : c.sent ≠ x := fun hc =>
    hsent (List.mem_append.mpr (Or.inr (hc ▸ List.mem_cons_self x l₂)))
  have hsent' : c.sent ∉ l₁ ++ l₂ := by
    intro hc
    rcases List.mem_append.mp hc with h1 | h2
    · exact hsent (List.mem_append.mpr (Or.inl h1))
    · exact hsent (List.mem_append.mpr (Or.inr (List.mem_cons_of_mem _ h2)))
  have hxn : x ≠ l₂.headD c.sent := by
    cases l₂ with
    | nil => exact fun hc => hsx hc.symm
    | cons y t => exact fun hc => hx_nl₂ (hc ▸ List.mem_cons_self y t)
  rcases List.eq_nil_or_concat l₁ with rfl | ⟨l, b, rfl⟩
  · -- erasing the first member
    have hxprev0 : (h x).prev = none := by simpa [prevAfter] using hxprev
    have heval : eraseA h c x =
        some (setPrev h (l₂.headD c.sent) none,
          { c with first := some (l₂.headD c.sent) }, l₂.headD c.sent) := by
      simp only [eraseA]
      rw [if_neg (fun hc => hsx hc.symm)]
      simp only [hxnext]
      rw [setPrev_other h (l₂.headD c.sent) ((h x).prev) x hxn, hxprev0]
    cases l₂ with
    | nil =>
        refine ⟨_, _, heval, setPrev_other h _ none x hxn, ?_, ?_⟩
        · simp [seqA, beginA, traverse]
        · intro hcon; simp at hcon
    | cons y t =>
        have hrep' : repA (setPrev h ((y :: t).headD c.sent) none)
            { c with first := some ((y :: t).headD c.sent) } (y :: t) := by
          refine ⟨by simp, ?_, ?_, by simpa using hnd', by simpa using hsent'⟩
          · simpa [exciseHeap, prevAfter] using hlink'
          · simpa [exciseHeap, prevAfter] using hsp'
        refine ⟨_, _, heval, setPrev_other h _ none x hxn, ?_, fun _ => by simpa using hrep'⟩
        simpa using repA_seq hrep'
  · -- the erased member had a predecessor b
    simp only [List.concat_eq_append] at *
    have hxprevb : (h x).prev = some b := by rw [hxprev, prevAfter_concat]
    have hb_mem : b ∈ l ++ [b] := List.mem_append.mpr (Or.inr (List.mem_cons_self b []))
    have hxb : x ≠ b := fun hc => hdisj hb_mem (hc ▸ List.mem_cons_self x l₂)
    have heval : eraseA h c x =
        some (setNext (setPrev h (l₂.headD c.sent) (some b)) b (some (l₂.headD c.sent)),
          c, l₂.headD c.sent) := by
      simp only [eraseA]
      rw [if_neg (fun hc => hsx hc.symm)]
      simp only [hxnext]
      rw [setPrev_other h (l₂.headD c.sent) ((h x).prev) x hxn, hxprevb]
    have hrep' : repA
        (setNext (setPrev h (l₂.headD c.sent) (some b)) b (some (l₂.headD c.sent)))
        c ((l ++ [b]) ++ l₂) := by
      refine ⟨?_, ?_, ?_, hnd', hsent'⟩
      · rw [hf, head?_skip_mid]
      · simpa [exciseHeap, prevAfter_concat] using hlink'
      · simpa [exciseHeap, prevAfter_concat] using hsp'
    refine ⟨_, _, heval, ?_, repA_seq hrep', fun _ => hrep'⟩
    rw [setNext_other _ b _ x hxb, setPrev_other h _ _ x hxn]

/-- Full behaviour of `erase` from `src/unnamed/part_000` at a member
position: like `intrusive_list.h`, but the representation invariant is
preserved unconditionally (`first` becomes `&after_last` when the chain
empties). -/
theorem eraseB_spec {h : Heap} {c : ListB} {l₁ l₂ : List Ptr} {x : Ptr}
    (hrep : repB h c (l₁ ++ x :: l₂)) :
    ∃ h' c', eraseB h c x = some (h', c', l₂.headD c.sent) ∧
      h' x = h x ∧
      repB h' c' (l₁ ++ l₂) := by
  obtain ⟨hf, hl, hsp, hnd, hsent⟩ := hrep
  obtain ⟨hxprev, hxnext, hlink', hsp', hx'⟩ := excise_linked hl hsp hnd hsent
  obtain ⟨ndl₁, ndx₂, hdisj⟩ := List.nodup_append.mp hnd
  have ndl₂ : l₂.Nodup := (List.nodup_cons.mp ndx₂).2
  have hx_nl₂ : x ∉ l₂ := (List.nodup_cons.mp ndx₂).1
  have hdisj12 : List.Disjoint l₁ l₂ :=
    fun a ha hb => hdisj ha (List.mem_cons_of_mem _ hb)
  have hnd' : (l₁ ++ l₂).Nodup := List.nodup_append.mpr ⟨ndl₁, ndl₂, hdisj12⟩
  have hsx : c.sent ≠ x := fun hc =>
    hsent (List.mem_append.mpr (Or.inr (hc ▸ List.mem_cons_self x l₂)))
  have hsent' : c.sent ∉ l₁ ++ l₂ := by
    intro hc
    rcases List.mem_append.mp hc with h1 | h2
    · exact hsent (List.mem_append.mpr (Or.inl h1))
    · exact hsent (List.mem_append.mpr (Or.inr (List.mem_cons_of_mem _ h2)))
  have hxn : x ≠ l₂.headD c.sent := by
    cases l₂ with
    | nil => exact fun hc => hsx hc.symm
    | cons y t => exact fun hc => hx_nl₂ (hc ▸ List.mem_cons_self y t)
  rcases List.eq_nil_or_concat l₁ with rfl | ⟨l, b, rfl⟩
  · -- erasing the first member
    have hxprev0 : (h x).prev = none := by simpa [prevAfter] using hxprev
    have heval : eraseB h c x =
        some (setPrev h (l₂.headD c.sent) none,
          { c with first := l₂.headD c.sent }, l₂.headD c.sent) := by
      simp only [eraseB]
      rw [if_neg (fun hc => hsx hc.symm)]
      simp only [hxnext]
      rw [setPrev_other h (l₂.headD c.sent) ((h x).prev) x hxn, hxprev0]
    refine ⟨_, _, heval, setPrev_other h _ none x hxn, ?_, ?_, ?_, by simpa using hnd',
      by simpa using hsent'⟩
    · rfl
    · simpa [exciseHeap, prevAfter] using hlink'
    · simpa [exciseHeap, prevAfter] using hsp'
  · -- the erased member had a predecessor b
    simp only [List.concat_eq_append] at *
    have hxprevb : (h x).prev = some b := by rw [hxprev, prevAfter_concat]
    have hb_mem : b ∈ l ++ [b] := List.mem_append.mpr (Or.inr (List.mem_cons_self b []))
    have hxb : x ≠ b := fun hc => hdisj hb_mem (hc ▸ List.mem_cons_self x l₂)
    have heval : eraseB h c x =
        some (setNext (setPrev h (l₂.headD c.sent) (some b)) b (some (l₂.headD c.sent)),
          c, l₂.headD c.sent) := by
      simp only [eraseB]
      rw [if_neg (fun hc => hsx hc.symm)]
      simp only [hxnext]
      rw [setPrev_other h (l₂.headD c.sent) ((h x).prev) x hxn, hxprevb]
    refine ⟨_, _, heval, ?_, ?_, ?_, ?_, hnd', hsent'⟩
    · rw [setNext_other _ b _ x hxb, setPrev_other h _ _ x hxn]
    · rw [hf, headD_skip_mid]
    · simpa [exciseHeap, prevAfter_concat] using hlink'
    · simpa [exciseHeap, prevAfter_concat] using hsp'

theorem setPrev_setNext_comm (h : Heap) (a b : Ptr) (v w : Option Ptr) :
    setPrev (setNext h b w) a v = setNext (setPrev h a v) b w := by
  funext d
  unfold setPrev setNext
  by_cases hda : d = a <;> by_cases hdb : d = b
  · subst hda; subst hdb; simp
  · subst hda; simp [hdb]
  · subst hdb; simp [hda]
  · simp [hda, hdb]

/-- Destroying (hence unlinking, in `intrusive_list.h`) a member that has a
predecessor removes it from the represented chain; the chain of the
remaining members, the `first` field and the sentinel stay consistent. -/
theorem unlinkA_excise {h : Heap} {c : ListA} {l₁ l₂ : List Ptr} {x : Ptr}
    (hrep : repA h c (l₁ ++ x :: l₂)) (hne : l₁ ≠ []) :
    repA (unlinkA h x) c (l₁ ++ l₂) := by
  obtain ⟨hf, hl, hsp, hnd, hsent⟩ := hrep
  obtain ⟨hxprev, hxnext, hlink', hsp', hx'⟩ := excise_linked hl hsp hnd hsent
  obtain ⟨ndl₁, ndx₂, hdisj⟩ := List.nodup_append.mp hnd
  have ndl₂ : l₂.Nodup := (List.nodup_cons.mp ndx₂).2
  have hdisj12 : List.Disjoint l₁ l₂ :=
    fun a ha hb => hdisj ha (List.mem_cons_of_mem _ hb)
  have hnd' : (l₁ ++ l₂).Nodup := List.nodup_append.mpr ⟨ndl₁, ndl₂, hdisj12⟩
  have hsent' : c.sent ∉ l₁ ++ l₂ := by
    intro hc
    rcases List.mem_append.mp hc with h1 | h2
    · exact hsent (List.mem_append.mpr (Or.inl h1))
    · exact hsent (List.mem_append.mpr (Or.inr (List.mem_cons_of_mem _ h2)))
  rcases List.eq_nil_or_concat l₁ with rfl | ⟨l, b, rfl⟩
  · exact absurd rfl hne
  simp only [List.concat_eq_append] at *
  have hxprevb : (h x).prev = some b := by rw [hxprev, prevAfter_concat]
  have hb_mem : b ∈ l ++ [b] := List.mem_append.mpr (Or.inr (List.mem_cons_self b []))
  have hxb : x ≠ b := fun hc => hdisj hb_mem (hc ▸ List.mem_cons_self x l₂)
  have heval : unlinkA h x =
      setPrev (setNext h b (some (l₂.headD c.sent))) (l₂.headD c.sent) (some b) := by
    simp only [unlinkA, hxprevb, hxnext,
      setNext_other h b (some (l₂.headD c.sent)) x hxb, setNext_prev]
  rw [heval, setPrev_setNext_comm]
  refine ⟨?_, ?_, ?_, hnd', hsent'⟩
  · rw [hf, head?_skip_mid]
  · simpa [exciseHeap, prevAfter_concat] using hlink'
  · simpa [exciseHeap, prevAfter_concat] using hsp'

/-- Grafting a donor segment `d0 :: dtl` (with last member `dLast`)
immediately before the position `r₂.headD rsent` of a receiver chain
`r₁ ++ r₂`: if the new heap rewires exactly the four boundary links and
leaves everything else alone, the combined chain is linked. -/
theorem linked_graft {h h' : Heap} {r₁ r₂ : List Ptr} {d0 : Ptr} {dtl : List Ptr}
    {dLast rsent dsent : Ptr}
    (hr : linked h none (r₁ ++ r₂) rsent)
    (hd : linked h none (d0 :: dtl) dsent)
    (hdl : lastOpt (d0 :: dtl) = some dLast)
    (ndr : (r₁ ++ r₂).Nodup) (ndd : (d0 :: dtl).Nodup)
    (hb : ∀ bb ∈ lastOpt r₁, (h' bb).next = some d0 ∧ (h' bb).prev = (h bb).prev)
    (hr₁f : ∀ a ∈ r₁, lastOpt r₁ ≠ some a → h' a = h a)
    (hr₂h : ∀ y ∈ r₂.head?, (h' y).prev = some dLast ∧ (h' y).next = (h y).next)
    (hr₂f : ∀ a ∈ r₂, r₂.head? ≠ some a → h' a = h a)
    (hd0 : (h' d0).prev = prevAfter none r₁)
    (hdLn : (h' dLast).next = some (r₂.headD rsent))
    (hdmp : ∀ a ∈ d0 :: dtl, a ≠ d0 → (h' a).prev = (h a).prev)
    (hdmn : ∀ a ∈ d0 :: dtl, lastOpt (d0 :: dtl) ≠ some a → (h' a).next = (h a).next) :
    linked h' none (r₁ ++ (d0 :: dtl) ++ r₂) rsent := by
  obtain ⟨hr1, hr2⟩ := linked_split hr
  have ndr₁ : r₁.Nodup := (List.nodup_append.mp ndr).1
  have ndr₂ : r₂.Nodup := (List.nodup_append.mp ndr).2.1
  have seg1 : linked h' none r₁ (((d0 :: dtl) ++ r₂).headD rsent) := by
    refine linked_boundary hr1 ndr₁ ?_ ?_ ?_ ?_
    · intro a ha
      have ham := head?_mem ha
      have hprev_a : (h a).prev = none := linked_head_prev hr1 a ha
      by_cases hal : lastOpt r₁ = some a
      · rw [(hb a hal).2]; exact hprev_a
      · rw [congrArg Node.prev (hr₁f a ham hal)]; exact hprev_a
    · intro g hg
      exact (hb g hg).1
    · intro a ha _
      by_cases hal : lastOpt r₁ = some a
      · exact (hb a hal).2
      · exact congrArg Node.prev (hr₁f a ha hal)
    · intro a ha hne
      exact congrArg Node.next (hr₁f a ha hne)
  have seg2 : linked h' (prevAfter none r₁) (d0 :: dtl) (r₂.headD rsent) := by
    refine linked_boundary hd ndd ?_ ?_ ?_ ?_
    · intro a ha
      have : d0 = a := by simpa using ha
      rw [← this]; exact hd0
    · intro g hg
      rw [hdl] at hg
      have : dLast = g := by simpa using hg
      rw [← this]; exact hdLn
    · intro a ha hne
      exact hdmp a ha (fun hc => hne (by simp [hc]))
    · intro a ha hne
      exact hdmn a ha hne
  have seg3 : linked h' (prevAfter (prevAfter none r₁) (d0 :: dtl)) r₂ rsent := by
    have hpad : prevAfter (prevAfter none r₁) (d0 :: dtl) = some dLast := by
      rw [prevAfter_eq_lastOpt, hdl]
    rw [hpad]
    cases r₂ with
    | nil => trivial
    | cons y t =>
        refine linked_boundary hr2 ndr₂ ?_ ?_ ?_ ?_
        · intro a ha
          have : y = a := by simpa using ha
          rw [← this]; exact (hr₂h y rfl).1
        · intro g hg
          have hgm := lastOpt_mem hg
          by_cases hgy : g = y
          · subst hgy
            rw [(hr₂h g rfl).2]
            exact linked_last_next hr2 g hg
          · rw [congrArg Node.next (hr₂f g hgm (fun hc => hgy ((by simpa using hc : y = g)).symm))]
            exact linked_last_next hr2 g hg
        · intro a ha hne
          exact congrArg Node.prev (hr₂f a ha hne)
        · intro a ha _
          by_cases hay : a = y
          · subst hay; exact (hr₂h a rfl).2
          · exact congrArg Node.next
              (hr₂f a ha (fun hc => hay ((by simpa using hc : y = a)).symm))
  have hcat := @linked_append h' r₁ none ((d0 :: dtl) ++ r₂) rsent seg1 (linked_append seg2 seg3)
  simpa [List.cons_append] using hcat

/-- `prev->next = to` when a previous link exists (`bo = some b`);
a no-op otherwise. -/
def condNext (h : Heap) (bo : Option Ptr) (v : Option Ptr) : Heap :=
  match bo with
  | none => h
  | some b => setNext h b v

theorem condNext_prev (h : Heap) (bo v : Option Ptr) (a : Ptr) :
    ((condNext h bo v) a).prev = (h a).prev := by
  cases bo with
  | none => rfl
  | some b => exact setNext_prev h b v a

theorem condNext_other (h : Heap) (bo v : Option Ptr) (a : Ptr)
    (ha : ∀ b, bo = some b → a ≠ b) : (condNext h bo v) a = h a := by
  cases bo with
  | none => rfl
  | some b => exact setNext_other h b v a (ha b rfl)

/-- The heap produced by the four-pointer rewiring of `splice` when the
moved range is `[from, to)` = the whole donor `d0 .. dLast`, grafted before
`it0`; `pa` is the `prev` of the receiver position (the `before_incision`),
`dsent` the donor's sentinel (`to`). -/
def spliceHeap (h : Heap) (pa : Option Ptr) (d0 dLast it0 dsent : Ptr) : Heap :=
  setPrev (setPrev (setNext (setPrev (condNext h pa (some d0)) it0 (some dLast))
    dLast (some it0)) dsent none) d0 pa

/-- Heap-level correctness of the full-donor splice rewiring: after
`spliceHeap`, the receiver's members with the donor's members grafted
before position `r₂.headD rsent` are linked, the receiver's sentinel back
pointer is right, and the donor's sentinel back pointer is null. -/
theorem spliceHeap_rep {h : Heap} {r₁ r₂ : List Ptr} {d0 : Ptr} {dtl : List Ptr}
    {dLast rsent dsent : Ptr}
    (hr : linked h none (r₁ ++ r₂) rsent)
    (hspr : (h rsent).prev = prevAfter none (r₁ ++ r₂))
    (hd : linked h none (d0 :: dtl) dsent)
    (hdl : lastOpt (d0 :: dtl) = some dLast)
    (ndr : (r₁ ++ r₂).Nodup) (ndd : (d0 :: dtl).Nodup)
    (hdisj : ∀ a ∈ r₁ ++ r₂, a ∉ d0 :: dtl)
    (hrs_nr : rsent ∉ r₁ ++ r₂) (hrs_nd : rsent ∉ d0 :: dtl)
    (hds_nr : dsent ∉ r₁ ++ r₂) (hds_nd : dsent ∉ d0 :: dtl)
    (hss : rsent ≠ dsent) :
    linked (spliceHeap h (prevAfter none r₁) d0 dLast (r₂.headD rsent) dsent) none
      (r₁ ++ (d0 :: dtl) ++ r₂) rsent ∧
    ((spliceHeap h (prevAfter none r₁) d0 dLast (r₂.headD rsent) dsent) rsent).prev =
      prevAfter none (r₁ ++ (d0 :: dtl) ++ r₂) ∧
    ((spliceHeap h (prevAfter none r₁) d0 dLast (r₂.headD rsent) dsent) dsent).prev =
      none := by
  have hd0m : d0 ∈ d0 :: dtl := List.mem_cons_self d0 dtl
  have hdLm : dLast ∈ d0 :: dtl := lastOpt_mem hdl
  have hpa_last : ∀ b, prevAfter none r₁ = some b → lastOpt r₁ = some b := by
    intro b hb
    rw [prevAfter_eq_lastOpt] at hb
    cases hlo : lastOpt r₁ with
    | none => rw [hlo] at hb; simp at hb
    | some bc => rw [hlo] at hb; simpa using hb
  have hpa_mem : ∀ b, prevAfter none r₁ = some b → b ∈ r₁ :=
    fun b hb => lastOpt_mem (hpa_last b hb)
  have hdisj_rr : List.Disjoint r₁ r₂ := (List.nodup_append.mp ndr).2.2
  have hit0_nr₁ : r₂.headD rsent ∉ r₁ := by
    cases r₂ with
    | nil => simpa using fun hc => hrs_nr (List.mem_append.mpr (Or.inl hc))
    | cons y t =>
        simp only [List.headD_cons]
        exact fun hc => hdisj_rr hc (List.mem_cons_self y t)
  have hit0_nd : r₂.headD rsent ∉ d0 :: dtl := by
    cases r₂ with
    | nil => simpa using hrs_nd
    | cons y t =>
        simp only [List.headD_cons]
        exact hdisj y (List.mem_append.mpr (Or.inr (List.mem_cons_self y t)))
  have hds_it0 : dsent ≠ r₂.headD rsent := by
    cases r₂ with
    | nil => simpa using hss.symm
    | cons y t =>
        simp only [List.headD_cons]
        intro hc
        apply hds_nr
        rw [hc]
        exact List.mem_append.mpr (Or.inr (List.mem_cons_self y t))
  have hd0_it0 : d0 ≠ r₂.headD rsent := fun hc => hit0_nd (by rw [← hc]; exact hd0m)
  have hdL_it0 : dLast ≠ r₂.headD rsent := fun hc => hit0_nd (by rw [← hc]; exact hdLm)
  have hfacts : ∀ a ∈ r₁ ++ r₂, a ≠ d0 ∧ a ≠ dLast ∧ a ≠ dsent := by
    intro a ha
    refine ⟨?_, ?_, ?_⟩
    · exact fun hc => hdisj a ha (by rw [hc]; exact hd0m)
    · exact fun hc => hdisj a ha (by rw [hc]; exact hdLm)
    · exact fun hc => hds_nr (by rw [← hc]; exact ha)
  have hdfacts : ∀ a ∈ d0 :: dtl, a ≠ dsent ∧ a ≠ r₂.headD rsent ∧
      (∀ b, prevAfter none r₁ = some b → a ≠ b) := by
    intro a ha
    refine ⟨?_, ?_, ?_⟩
    · exact fun hc => hds_nd (by rw [← hc]; exact ha)
    · exact fun hc => hit0_nd (by rw [← hc]; exact ha)
    · intro b hb hc
      exact hdisj b (List.mem_append.mpr (Or.inl (hpa_mem b hb))) (by rw [← hc]; exact ha)
  have hgraft := @linked_graft h
    (spliceHeap h (prevAfter none r₁) d0 dLast (r₂.headD rsent) dsent)
    r₁ r₂ d0 dtl dLast rsent dsent hr hd hdl ndr ndd ?hb ?hr₁f ?hr₂h ?hr₂f ?hd0
    ?hdLn ?hdmp ?hdmn
  case hb =>
    intro bb hbb
    have hbbr : bb ∈ r₁ := lastOpt_mem hbb
    have hbbm : bb ∈ r₁ ++ r₂ := List.mem_append.mpr (Or.inl hbbr)
    obtain ⟨h1, h2, h3⟩ := hfacts bb hbbm
    have h4 : bb ≠ r₂.headD rsent := fun hc => hit0_nr₁ (by rw [← hc]; exact hbbr)
    have hpab : prevAfter none r₁ = some bb := by rw [prevAfter_eq_lastOpt, hbb]
    constructor
    · simp only [spliceHeap]
      rw [setPrev_next, setPrev_next, setNext_other _ dLast _ bb h2, setPrev_next, hpab]
      exact setNext_at h bb (some d0)
    · simp only [spliceHeap]
      rw [setPrev_other _ d0 _ bb h1, setPrev_other _ dsent _ bb h3, setNext_prev,
        setPrev_other _ _ _ bb h4, condNext_prev]
  case hr₁f =>
    intro a ha hne
    have ham : a ∈ r₁ ++ r₂ := List.mem_append.mpr (Or.inl ha)
    obtain ⟨h1, h2, h3⟩ := hfacts a ham
    have h4 : a ≠ r₂.headD rsent := fun hc => hit0_nr₁ (by rw [← hc]; exact ha)
    have h5 : ∀ b, prevAfter none r₁ = some b → a ≠ b :=
      fun b hb hc => hne (by rw [hc]; exact hpa_last b hb)
    simp only [spliceHeap]
    rw [setPrev_other _ d0 _ a h1, setPrev_other _ dsent _ a h3,
      setNext_other _ dLast _ a h2, setPrev_other _ _ _ a h4,
      condNext_other h _ _ a h5]
  case hr₂h =>
    intro y hy
    have hym : y ∈ r₂ := head?_mem hy
    have hymm : y ∈ r₁ ++ r₂ := List.mem_append.mpr (Or.inr hym)
    obtain ⟨h1, h2, h3⟩ := hfacts y hymm
    have hit0y : r₂.headD rsent = y := by
      cases r₂ with
      | nil => simp at hy
      | cons z t =>
          have : z = y := by simpa using hy
          simpa using this
    have h5 : ∀ b, prevAfter none r₁ = some b → y ≠ b :=
      fun b hb hc => hdisj_rr (by rw [hc]; exact hpa_mem b hb) hym
    constructor
    · simp only [spliceHeap]
      rw [setPrev_other _ d0 _ y h1, setPrev_other _ dsent _ y h3, setNext_prev,
        ← hit0y]
      exact setPrev_at _ _ (some dLast)
    · simp only [spliceHeap]
      rw [setPrev_next, setPrev_next, setNext_other _ dLast _ y h2, setPrev_next,
        congrArg Node.next (condNext_other h _ (some d0) y h5)]
  case hr₂f =>
    intro a ha hne
    have ham : a ∈ r₁ ++ r₂ := List.mem_append.mpr (Or.inr ha)
    obtain ⟨h1, h2, h3⟩ := hfacts a ham
    have h4 : a ≠ r₂.headD rsent := by
      cases r₂ with
      | nil => simp at ha
      | cons z t =>
          simp only [List.headD_cons]
          exact fun hc => hne (by simp [hc])
    have h5 : ∀ b, prevAfter none r₁ = some b → a ≠ b :=
      fun b hb hc => hdisj_rr (by rw [hc]; exact hpa_mem b hb) ha
    simp only [spliceHeap]
    rw [setPrev_other _ d0 _ a h1, setPrev_other _ dsent _ a h3,
      setNext_other _ dLast _ a h2, setPrev_other _ _ _ a h4,
      condNext_other h _ _ a h5]
  case hd0 =>
    simp only [spliceHeap]
    exact setPrev_at _ d0 _
  case hdLn =>
    simp only [spliceHeap]
    rw [setPrev_next, setPrev_next]
    exact setNext_at _ dLast _
  case hdmp =>
    intro a ha had0
    obtain ⟨h1, h2, _⟩ := hdfacts a ha
    simp only [spliceHeap]
    rw [setPrev_other _ d0 _ a had0, setPrev_other _ dsent _ a h1, setNext_prev,
      setPrev_other _ _ _ a h2, condNext_prev]
  case hdmn =>
    intro a ha hne
    obtain ⟨h1, h2, h5⟩ := hdfacts a ha
    have hadL : a ≠ dLast := fun hc => hne (by rw [hc]; exact hdl)
    simp only [spliceHeap]
    rw [setPrev_next, setPrev_next, setNext_other _ dLast _ a hadL, setPrev_next,
      congrArg Node.next (condNext_other h _ (some d0) a h5)]
  · refine ⟨hgraft, ?_, ?_⟩
    · -- receiver sentinel back pointer
      have hrs_d0 : rsent ≠ d0 := fun hc => hrs_nd (by rw [hc]; exact hd0m)
      cases r₂ with
      | nil =>
          simp only [spliceHeap, List.headD_nil]
          rw [setPrev_other _ d0 _ rsent hrs_d0, setPrev_other _ dsent _ rsent hss,
            setNext_prev]
          rw [setPrev_at _ rsent (some dLast)]
          rw [List.append_nil, prevAfter_append, prevAfter_eq_lastOpt, hdl]
      | cons y t =>
          have hrsy : rsent ≠ y := by
            intro hc
            apply hrs_nr
            rw [hc]
            exact List.mem_append.mpr (Or.inr (List.mem_cons_self y t))
          simp only [spliceHeap, List.headD_cons]
          rw [setPrev_other _ d0 _ rsent hrs_d0, setPrev_other _ dsent _ rsent hss,
            setNext_prev, setPrev_other _ y _ rsent hrsy, condNext_prev, hspr]
          simp only [prevAfter_append, prevAfter]
    · -- donor sentinel back pointer
      have hdsd0 : dsent ≠ d0 := fun hc => hds_nd (by rw [hc]; exact hd0m)
      simp only [spliceHeap]
      rw [setPrev_other _ d0 _ dsent hdsd0]
      exact setPrev_at _ dsent none

theorem nodup_graft {r₁ r₂ dxs : List Ptr} (ndr : (r₁ ++ r₂).Nodup)
    (ndd : dxs.Nodup) (hdisj : ∀ a ∈ r₁ ++ r₂, a ∉ dxs) :
    (r₁ ++ dxs ++ r₂).Nodup := by
  obtain ⟨nd1, nd2, dj⟩ := List.nodup_append.mp ndr
  rw [List.nodup_append]
  refine ⟨?_, nd2, ?_⟩
  · rw [List.nodup_append]
    refine ⟨nd1, ndd, ?_⟩
    intro a ha hb
    exact hdisj a (List.mem_append.mpr (Or.inl ha)) hb
  · intro a ha hb
    rcases List.mem_append.mp ha with h1 | h2
    · exact dj h1 hb
    · exact hdisj a (List.mem_append.mpr (Or.inr hb)) h2

theorem not_mem_graft {r₁ r₂ dxs : List Ptr} {s : Ptr}
    (hs : s ∉ r₁ ++ r₂) (hsd : s ∉ dxs) : s ∉ r₁ ++ dxs ++ r₂ := by
  intro hc
  rcases List.mem_append.mp hc with h12 | h3
  · rcases List.mem_append.mp h12 with h1 | h2
    · exact hs (List.mem_append.mpr (Or.inl h1))
    · exact hsd h2
  · exact hs (List.mem_append.mpr (Or.inr h3))

theorem head?_append_left_ne (l : List Ptr) (bb : Ptr) (ys zs : List Ptr) :
    ((l ++ [bb]) ++ ys).head? = ((l ++ [bb]) ++ zs).head? := by
  cases l <;> rfl

theorem headD_append_left_ne (l : List Ptr) (bb d : Ptr) (ys zs : List Ptr) :
    ((l ++ [bb]) ++ ys).headD d = ((l ++ [bb]) ++ zs).headD d := by
  cases l <;> rfl

/-- Full-range splice in `intrusive_list.h`: moving the whole non-empty
donor `[donor.begin(), donor.end())` before the receiver position
`r₂.headD recv.sent` grafts the donor's sequence there and empties the
donor. -/
theorem spliceA_spec {h : Heap} {recv donor : ListA} {r₁ r₂ dxs : List Ptr}
    (hrecv : repA h recv (r₁ ++ r₂)) (hdonor : repA h donor dxs) (hne : dxs ≠ [])
    (hdisj : ∀ a ∈ r₁ ++ r₂, a ∉ dxs)
    (hrs_nd : recv.sent ∉ dxs) (hds_nr : donor.sent ∉ r₁ ++ r₂)
    (hss : recv.sent ≠ donor.sent) :
    ∃ h' recv' donor',
      spliceA h recv (r₂.headD recv.sent) donor (beginA donor) donor.sent =
        some (h', recv', donor') ∧
      repA h' recv' (r₁ ++ dxs ++ r₂) ∧ repA h' donor' [] := by
  obtain ⟨hfr, hlr, hspr, ndr, hsr⟩ := hrecv
  obtain ⟨hfd, hld, hspd, ndd, hsd⟩ := hdonor
  cases dxs with
  | nil => exact absurd rfl hne
  | cons d0 dtl =>
  obtain ⟨dLast, hdl⟩ := lastOpt_cons_eq_some d0 dtl
  have hd0m : d0 ∈ d0 :: dtl := List.mem_cons_self d0 dtl
  have hdLm : dLast ∈ d0 :: dtl := lastOpt_mem hdl
  have hbegin : beginA donor = d0 := by
    simp [beginA, hfd]
  have hd0prev : (h d0).prev = none := hld.1
  have hspd' : (h donor.sent).prev = some dLast := by
    rw [hspd, prevAfter_eq_lastOpt, hdl]
  have hd0ds : d0 ≠ donor.sent := fun hc => hsd (by rw [← hc]; exact hd0m)
  have hit0prev : (h (r₂.headD recv.sent)).prev = prevAfter none r₁ := by
    cases r₂ with
    | nil =>
        simp only [List.headD_nil]
        rw [hspr, List.append_nil]
    | cons y t =>
        simp only [List.headD_cons]
        exact (linked_split hlr).2.1
  have hds_it0 : donor.sent ≠ r₂.headD recv.sent := by
    cases r₂ with
    | nil => simpa using hss.symm
    | cons y t =>
        simp only [List.headD_cons]
        intro hc
        apply hds_nr
        rw [hc]
        exact List.mem_append.mpr (Or.inr (List.mem_cons_self y t))
  have hit0_nd : r₂.headD recv.sent ∉ d0 :: dtl := by
    cases r₂ with
    | nil => simpa using hrs_nd
    | cons y t =>
        simp only [List.headD_cons]
        exact hdisj y (List.mem_append.mpr (Or.inr (List.mem_cons_self y t)))
  have hd0_it0 : d0 ≠ r₂.headD recv.sent := fun hc => hit0_nd (by rw [← hc]; exact hd0m)
  have hgoal := spliceHeap_rep hlr hspr hld hdl ndr ndd hdisj hsr hrs_nd hds_nr hsd hss
  obtain ⟨hlink6, hsent6, hds6⟩ := hgoal
  have hnd6 : (r₁ ++ (d0 :: dtl) ++ r₂).Nodup := nodup_graft ndr ndd hdisj
  have hsr6 : recv.sent ∉ r₁ ++ (d0 :: dtl) ++ r₂ := not_mem_graft hsr hrs_nd
  have eS3 : ∀ hx : Heap, (hx donor.sent).prev = some dLast →
      ((setPrev hx (r₂.headD recv.sent) (some dLast)) donor.sent).prev = some dLast := by
    intro hx hhx
    rw [setPrev_other _ _ _ _ hds_it0]
    exact hhx
  rcases List.eq_nil_or_concat r₁ with rfl | ⟨l, bb, rfl⟩
  · -- the receiver position is the receiver's first member (or its end when empty)
    have hit0prev0 : (h (r₂.headD recv.sent)).prev = none := by
      simpa [prevAfter] using hit0prev
    have eS5 : ((setPrev h (r₂.headD recv.sent) (some dLast)) d0).prev = none := by
      rw [setPrev_other _ _ _ _ hd0_it0]
      exact hd0prev
    have heval : spliceA h recv (r₂.headD recv.sent) donor (beginA donor) donor.sent =
        some (spliceHeap h none d0 dLast (r₂.headD recv.sent) donor.sent,
          { recv with first := some d0 }, { donor with first := none }) := by
      rw [hbegin]
      simp only [spliceA]
      rw [if_neg hd0ds]
      simp only [hd0prev]
      simp only [if_true]
      simp only [hit0prev0, hspd', eS3 h hspd', setNext_prev, eS5]
      simp only [spliceHeap, condNext]
    refine ⟨_, _, _, heval, ?_, ?_⟩
    · refine ⟨by simp, ?_, ?_, ?_, ?_⟩
      · exact hlink6
      · exact hsent6
      · exact hnd6
      · exact hsr6
    · refine ⟨rfl, trivial, ?_, by simp, by simp⟩
      exact hds6
  · -- the receiver position has a previous member bb
    simp only [List.concat_eq_append] at *
    have hpa : prevAfter none (l ++ [bb]) = some bb := prevAfter_concat none l bb
    rw [hpa] at hit0prev hlink6 hsent6 hds6
    have hbbm : bb ∈ (l ++ [bb]) ++ r₂ :=
      List.mem_append.mpr (Or.inl (List.mem_append.mpr (Or.inr (List.mem_cons_self bb []))))
    have hbb_it0 : bb ≠ r₂.headD recv.sent := by
      cases r₂ with
      | nil =>
          simp only [List.headD_nil]
          exact fun hc => hsr (by rw [← hc]; exact hbbm)
      | cons y t =>
          simp only [List.headD_cons]
          have := (List.nodup_append.mp ndr).2.2
          exact fun hc => this (List.mem_append.mpr (Or.inr (List.mem_cons_self bb [])))
            (by rw [hc]; exact List.mem_cons_self y t)
    have hbbds : bb ≠ donor.sent := fun hc => hds_nr (by rw [← hc]; exact hbbm)
    have eS5 : ((setPrev (setNext h bb (some d0)) (r₂.headD recv.sent) (some dLast))
        d0).prev = none := by
      rw [setPrev_other _ _ _ _ hd0_it0, setNext_prev]
      exact hd0prev
    have hspd2 : ((setNext h bb (some d0)) donor.sent).prev = some dLast := by
      rw [setNext_prev]
      exact hspd'
    have heval : spliceA h recv (r₂.headD recv.sent) donor (beginA donor) donor.sent =
        some (spliceHeap h (some bb) d0 dLast (r₂.headD recv.sent) donor.sent,
          recv, { donor with first := none }) := by
      rw [hbegin]
      simp only [spliceA]
      rw [if_neg hd0ds]
      simp only [hd0prev]
      simp only [if_true]
      simp only [hit0prev, setNext_prev, hspd', eS3 _ hspd2, eS5]
      simp only [spliceHeap, condNext]
    refine ⟨_, _, _, heval, ?_, ?_⟩
    · refine ⟨?_, ?_, ?_, ?_, ?_⟩
      · rw [hfr]
        have hh := head?_append_left_ne l bb r₂ (d0 :: dtl ++ r₂)
        simp [List.append_assoc] at hh
        simp [List.append_assoc, hh]
      · exact hlink6
      · exact hsent6
      · exact hnd6
      · exact hsr6
    · refine ⟨rfl, trivial, ?_, by simp, by simp⟩
      exact hds6

/-- Full-range splice in `part_000`: same rewiring as `intrusive_list.h`,
with the donor emptied to `first = &after_last`. -/
theorem spliceB_spec {h : Heap} {recv donor : ListB} {r₁ r₂ dxs : List Ptr}
    (hrecv : repB h recv (r₁ ++ r₂)) (hdonor : repB h donor dxs) (hne : dxs ≠ [])
    (hdisj : ∀ a ∈ r₁ ++ r₂, a ∉ dxs)
    (hrs_nd : recv.sent ∉ dxs) (hds_nr : donor.sent ∉ r₁ ++ r₂)
    (hss : recv.sent ≠ donor.sent) :
    ∃ h' recv' donor',
      spliceB h recv (r₂.headD recv.sent) donor (beginB donor) donor.sent =
        some (h', recv', donor') ∧
      repB h' recv' (r₁ ++ dxs ++ r₂) ∧ repB h' donor' [] := by
  obtain ⟨hfr, hlr, hspr, ndr, hsr⟩ := hrecv
  obtain ⟨hfd, hld, hspd, ndd, hsd⟩ := hdonor
  cases dxs with
  | nil => exact absurd rfl hne
  | cons d0 dtl =>
  obtain ⟨dLast, hdl⟩ := lastOpt_cons_eq_some d0 dtl
  have hd0m : d0 ∈ d0 :: dtl := List.mem_cons_self d0 dtl
  have hdLm : dLast ∈ d0 :: dtl := lastOpt_mem hdl
  have hbegin : beginB donor = d0 := by
    simp [beginB, hfd]
  have hd0prev : (h d0).prev = none := hld.1
  have hspd' : (h donor.sent).prev = some dLast := by
    rw [hspd, prevAfter_eq_lastOpt, hdl]
  have hd0ds : d0 ≠ donor.sent := fun hc => hsd (by rw [← hc]; exact hd0m)
  have hit0prev : (h (r₂.headD recv.sent)).prev = prevAfter none r₁ := by
    cases r₂ with
    | nil =>
        simp only [List.headD_nil]
        rw [hspr, List.append_nil]
    | cons y t =>
        simp only [List.headD_cons]
        exact (linked_split hlr).2.1
  have hds_it0 : donor.sent ≠ r₂.headD recv.sent := by
    cases r₂ with
    | nil => simpa using hss.symm
    | cons y t =>
        simp only [List.headD_cons]
        intro hc
        apply hds_nr
        rw [hc]
        exact List.mem_append.mpr (Or.inr (List.mem_cons_self y t))
  have hit0_nd : r₂.headD recv.sent ∉ d0 :: dtl := by
    cases r₂ with
    | nil => simpa using hrs_nd
    | cons y t =>
        simp only [List.headD_cons]
        exact hdisj y (List.mem_append.mpr (Or.inr (List.mem_cons_self y t)))
  have hd0_it0 : d0 ≠ r₂.headD recv.sent := fun hc => hit0_nd (by rw [← hc]; exact hd0m)
  have hgoal := spliceHeap_rep hlr hspr hld hdl ndr ndd hdisj hsr hrs_nd hds_nr hsd hss
  obtain ⟨hlink6, hsent6, hds6⟩ := hgoal
  have hnd6 : (r₁ ++ (d0 :: dtl) ++ r₂).Nodup := nodup_graft ndr ndd hdisj
  have hsr6 : recv.sent ∉ r₁ ++ (d0 :: dtl) ++ r₂ := not_mem_graft hsr hrs_nd
  have eS3 : ∀ hx : Heap, (hx donor.sent).prev = some dLast →
      ((setPrev hx (r₂.headD recv.sent) (some dLast)) donor.sent).prev = some dLast := by
    intro hx hhx
    rw [setPrev_other _ _ _ _ hds_it0]
    exact hhx
  rcases List.eq_nil_or_concat r₁ with rfl | ⟨l, bb, rfl⟩
  · -- the receiver position is the receiver's first member (or its end when empty)
    have hit0prev0 : (h (r₂.headD recv.sent)).prev = none := by
      simpa [prevAfter] using hit0prev
    have eS5 : ((setPrev h (r₂.headD recv.sent) (some dLast)) d0).prev = none := by
      rw [setPrev_other _ _ _ _ hd0_it0]
      exact hd0prev
    have heval : spliceB h recv (r₂.headD recv.sent) donor (beginB donor) donor.sent =
        some (spliceHeap h none d0 dLast (r₂.headD recv.sent) donor.sent,
          { recv with first := d0 }, { donor with first := donor.sent }) := by
      rw [hbegin]
      simp only [spliceB]
      rw [if_neg hd0ds]
      simp only [hd0prev]
      simp only [if_true]
      simp only [hit0prev0, hspd', eS3 h hspd', setNext_prev, eS5]
      simp only [spliceHeap, condNext]
    refine ⟨_, _, _, heval, ?_, ?_⟩
    · refine ⟨by simp, ?_, ?_, ?_, ?_⟩
      · exact hlink6
      · exact hsent6
      · exact hnd6
      · exact hsr6
    · refine ⟨rfl, trivial, ?_, by simp, by simp⟩
      exact hds6
  · -- the receiver position has a previous member bb
    simp only [List.concat_eq_append] at *
    have hpa : prevAfter none (l ++ [bb]) = some bb := prevAfter_concat none l bb
    rw [hpa] at hit0prev hlink6 hsent6 hds6
    have hbbm : bb ∈ (l ++ [bb]) ++ r₂ :=
      List.mem_append.mpr (Or.inl (List.mem_append.mpr (Or.inr (List.mem_cons_self bb []))))
    have hbb_it0 : bb ≠ r₂.headD recv.sent := by
      cases r₂ with
      | nil =>
          simp only [List.headD_nil]
          exact fun hc => hsr (by rw [← hc]; exact hbbm)
      | cons y t =>
          simp only [List.headD_cons]
          have := (List.nodup_append.mp ndr).2.2
          exact fun hc => this (List.mem_append.mpr (Or.inr (List.mem_cons_self bb [])))
            (by rw [hc]; exact List.mem_cons_self y t)
    have hbbds : bb ≠ donor.sent := fun hc => hds_nr (by rw [← hc]; exact hbbm)
    have eS5 : ((setPrev (setNext h bb (some d0)) (r₂.headD recv.sent) (some dLast))
        d0).prev = none := by
      rw [setPrev_other _ _ _ _ hd0_it0, setNext_prev]
      exact hd0prev
    have hspd2 : ((setNext h bb (some d0)) donor.sent).prev = some dLast := by
      rw [setNext_prev]
      exact hspd'
    have heval : spliceB h recv (r₂.headD recv.sent) donor (beginB donor) donor.sent =
        some (spliceHeap h (some bb) d0 dLast (r₂.headD recv.sent) donor.sent,
          recv, { donor with first := donor.sent }) := by
      rw [hbegin]
      simp only [spliceB]
      rw [if_neg hd0ds]
      simp only [hd0prev]
      simp only [if_true]
      simp only [hit0prev, setNext_prev, hspd', eS3 _ hspd2, eS5]
      simp only [spliceHeap, condNext]
    refine ⟨_, _, _, heval, ?_, ?_⟩
    · refine ⟨?_, ?_, ?_, ?_, ?_⟩
      · rw [hfr]
        have hh := headD_append_left_ne l bb recv.sent r₂ (d0 :: dtl ++ r₂)
        simp [List.append_assoc] at hh
        simp [List.append_assoc, hh]
      · exact hlink6
      · exact hsent6
      · exact hnd6
      · exact hsr6
    · refine ⟨rfl, trivial, ?_, by simp, by simp⟩
      exact hds6

/-- Move assignment in `intrusive_list.h`: the target takes over the
source's whole member sequence, the source is left empty.  (Works for any
source length, including empty; the target is assumed empty, as after
default construction or `clear`.) -/
theorem moveAssignA_spec {h : Heap} {tgt other : ListA} {xs : List Ptr}
    (hother : repA h other xs) (_htgt : repA h tgt [])
    (hts_nx : tgt.sent ∉ xs) (hts_os : tgt.sent ≠ other.sent) :
    repA (moveAssignA h tgt other).1 (moveAssignA h tgt other).2.1 xs ∧
    repA (moveAssignA h tgt other).1 (moveAssignA h tgt other).2.2 [] := by
  obtain ⟨hfo, hlo, hspo, ndo, hso⟩ := hother
  rcases List.eq_nil_or_concat xs with rfl | ⟨l, lastel, rfl⟩
  · have hspo0 : (h other.sent).prev = none := by simpa [prevAfter] using hspo
    have heval : moveAssignA h tgt other =
        (setPrev (setPrev h tgt.sent none) other.sent none,
          { tgt with first := other.first }, { other with first := none }) := by
      simp only [moveAssignA, setPrev_at, hspo0]
    rw [heval]
    dsimp only
    have hos_ts : other.sent ≠ tgt.sent := Ne.symm hts_os
    refine ⟨⟨by simpa using hfo, trivial, ?_, by simp, by simp⟩,
      rfl, trivial, ?_, by simp, by simp⟩
    · rw [setPrev_other _ other.sent _ tgt.sent hts_os]
      simpa [prevAfter] using setPrev_at h tgt.sent none
    · exact setPrev_at _ other.sent none
  · simp only [List.concat_eq_append] at *
    have hspoc : (h other.sent).prev = some lastel := by
      rw [hspo, prevAfter_concat]
    have hlm : lastel ∈ l ++ [lastel] :=
      List.mem_append.mpr (Or.inr (List.mem_cons_self lastel []))
    have heval : moveAssignA h tgt other =
        (setPrev (setNext (setPrev h tgt.sent (some lastel)) lastel (some tgt.sent))
            other.sent none,
          { tgt with first := other.first }, { other with first := none }) := by
      simp only [moveAssignA, setPrev_at, hspoc]
    rw [heval]
    dsimp only
    have hos_ts : other.sent ≠ tgt.sent := Ne.symm hts_os
    have hmem_ne : ∀ a ∈ l ++ [lastel], a ≠ other.sent ∧ a ≠ tgt.sent := by
      intro a ha
      exact ⟨fun hc => hso (by rw [← hc]; exact ha),
        fun hc => hts_nx (by rw [← hc]; exact ha)⟩
    refine ⟨⟨hfo, ?_, ?_, ndo, hts_nx⟩, rfl, trivial, ?_, by simp, by simp⟩
    · -- the member chain now ends at the target's sentinel
      refine linked_boundary hlo ndo ?_ ?_ ?_ ?_
      · intro a ha
        obtain ⟨h1, h2⟩ := hmem_ne a (head?_mem ha)
        rw [setPrev_other _ other.sent _ a h1, setNext_prev,
          setPrev_other _ tgt.sent _ a h2]
        exact linked_head_prev hlo a ha
      · intro g hg
        rw [lastOpt_concat] at hg
        have : lastel = g := by simpa using hg
        rw [← this]
        obtain ⟨h1, _⟩ := hmem_ne lastel hlm
        rw [setPrev_next]
        exact setNext_at _ lastel _
      · intro a ha _
        obtain ⟨h1, h2⟩ := hmem_ne a ha
        rw [setPrev_other _ other.sent _ a h1, setNext_prev,
          setPrev_other _ tgt.sent _ a h2]
      · intro a ha hne
        rw [lastOpt_concat] at hne
        have hal : a ≠ lastel := fun hc => hne (by simp [hc])
        obtain ⟨h1, _⟩ := hmem_ne a ha
        rw [setPrev_other _ other.sent _ a h1, setNext_other _ lastel _ a hal,
          setPrev_next]
    · -- target sentinel back pointer
      rw [setPrev_other _ other.sent _ tgt.sent hts_os, setNext_prev,
        setPrev_at h tgt.sent (some lastel), prevAfter_concat]
    · -- source sentinel cleared
      exact setPrev_at _ other.sent none

/-- Move assignment in `part_000` (`clear(); splice(begin(), other, ...)`). -/
theorem moveAssignB_spec {h : Heap} {tgt other : ListB} {xs : List Ptr}
    (hother : repB h other xs)
    (hts_nx : tgt.sent ∉ xs) (hts_os : tgt.sent ≠ other.sent) :
    ∃ h' tgt' other', moveAssignB h tgt other = some (h', tgt', other') ∧
      repB h' tgt' xs ∧ repB h' other' [] := by
  obtain ⟨hfo, hlo, hspo, ndo, hso⟩ := hother
  have hos_ts : other.sent ≠ tgt.sent := Ne.symm hts_os
  have hrecv : repB (setPrev h tgt.sent none) { tgt with first := tgt.sent } [] := by
    refine ⟨rfl, trivial, ?_, by simp, by simp⟩
    simpa [prevAfter] using setPrev_at h tgt.sent none
  cases xs with
  | nil =>
      have heval : moveAssignB h tgt other =
          some (setPrev h tgt.sent none, { tgt with first := tgt.sent }, other) := by
        simp only [moveAssignB, clearB, spliceB, beginB, endB, hfo, List.headD_nil]
        simp only [if_true]
      refine ⟨_, _, _, heval, hrecv, ?_⟩
      refine ⟨hfo, trivial, ?_, by simp, by simp⟩
      rw [setPrev_other _ tgt.sent _ other.sent hos_ts]
      simpa [prevAfter] using hspo
  | cons x0 xtl =>
      have hdonor : repB (setPrev h tgt.sent none) other (x0 :: xtl) := by
        refine ⟨hfo, ?_, ?_, ndo, hso⟩
        · refine linked_frame ?_ hlo
          intro a ha
          exact setPrev_other _ tgt.sent _ a (fun hc => hts_nx (by rw [← hc]; exact ha))
        · rw [setPrev_other _ tgt.sent _ other.sent hos_ts]
          exact hspo
      have hspec := @spliceB_spec (setPrev h tgt.sent none)
        { tgt with first := tgt.sent } other [] [] (x0 :: xtl) hrecv hdonor
        (by simp) (by simp) hts_nx (by simp) hts_os
      obtain ⟨h', r', d', heq, hr', hd'⟩ := hspec
      refine ⟨h', r', d', ?_, by simpa using hr', hd'⟩
      rw [show moveAssignB h tgt other = spliceB (setPrev h tgt.sent none)
        { tgt with first := tgt.sent } tgt.sent other other.first other.sent from rfl]
      rw [← heq]
      rfl

/-- Move construction in `part_000` (splice into a freshly
default-constructed list). -/
theorem moveConsB_spec {h : Heap} {tgt other : ListB} {xs : List Ptr}
    (htgt : repB h tgt []) (hother : repB h other xs)
    (hts_nx : tgt.sent ∉ xs) (hts_os : tgt.sent ≠ other.sent) :
    ∃ h' tgt' other', moveConsB h tgt other = some (h', tgt', other') ∧
      repB h' tgt' xs ∧ repB h' other' [] := by
  cases xs with
  | nil =>
      have heval : moveConsB h tgt other = some (h, tgt, other) := by
        simp only [moveConsB, spliceB, beginB, endB, hother.1, List.headD_nil]
        simp only [if_true]
      exact ⟨_, _, _, heval, htgt, hother⟩
  | cons x0 xtl =>
      have hspec := @spliceB_spec h tgt other [] [] (x0 :: xtl) htgt hother
        (by simp) (by simp) hts_nx (by simp) hts_os
      obtain ⟨h', r', d', heq, hr', hd'⟩ := hspec
      refine ⟨h', r', d', ?_, by simpa using hr', hd'⟩
      rw [show moveConsB h tgt other =
        spliceB h tgt (beginB tgt) other (beginB other) other.sent from rfl]
      rw [show beginB tgt = tgt.sent from by simp [beginB, htgt.1]]
      rw [← heq]
      rfl

theorem repB_seq {h : Heap} {c : ListB} {xs : List Ptr} (hrep : repB h c xs) :
    seqB h c xs.length = some xs := by
  obtain ⟨hf, hl, _, _, hs⟩ := hrep
  cases xs with
  | nil =>
      unfold seqB beginB
      rw [hf]
      simp [traverse]
  | cons y t =>
      unfold seqB beginB
      rw [hf]
      simpa using linked_traverse hl hs

/-!  ## Concrete fixtures -/

/-- Chain `[1,2,3,4,5]` with sentinel at address 6. -/
def heap5 : Heap := fun a =>
  if a = 1 then ⟨none, some 2⟩ else if a = 2 then ⟨some 1, some 3⟩
  else if a = 3 then ⟨some 2, some 4⟩ else if a = 4 then ⟨some 3, some 5⟩
  else if a = 5 then ⟨some 4, some 6⟩ else if a = 6 then ⟨some 5, none⟩
  else ⟨none, none⟩

/-- Three raw links 1 ↔ 2 ↔ 3 (no sentinel; the outer ends are null). -/
def heap3 : Heap := fun a =>
  if a = 1 then ⟨none, some 2⟩ else if a = 2 then ⟨some 1, some 3⟩
  else if a = 3 then ⟨some 2, none⟩ else ⟨none, none⟩

/-- A chain with the single member 10 and sentinel 6. -/
def heapS : Heap := fun a =>
  if a = 10 then ⟨none, some 6⟩ else if a = 6 then ⟨some 10, none⟩ else ⟨none, none⟩

/-- Chain `[1,2]` with sentinel 9. -/
def heap12 : Heap := fun a =>
  if a = 1 then ⟨none, some 2⟩ else if a = 2 then ⟨some 1, some 9⟩
  else if a = 9 then ⟨some 2, none⟩ else ⟨none, none⟩

/-- Chain `[10,20,30]` with sentinel 99 (and a free sentinel 77 for moves). -/
def heap123 : Heap := fun a =>
  if a = 10 then ⟨none, some 20⟩ else if a = 20 then ⟨some 10, some 30⟩
  else if a = 30 then ⟨some 20, some 99⟩ else if a = 99 then ⟨some 30, none⟩
  else ⟨none, none⟩

/-- Two disjoint chains: receiver `[1,2]` (sentinel 50), donor `[3,4]`
(sentinel 60). -/
def heapPair : Heap := fun a =>
  if a = 1 then ⟨none, some 2⟩ else if a = 2 then ⟨some 1, some 50⟩
  else if a = 50 then ⟨some 2, none⟩ else if a = 3 then ⟨none, some 4⟩
  else if a = 4 then ⟨some 3, some 60⟩ else if a = 60 then ⟨some 4, none⟩
  else ⟨none, none⟩

/-- The all-null heap (every link default-constructed and detached). -/
def heap0 : Heap := fun _ => ⟨none, none⟩

/-- The `intrusive_list.h` chain after `push_back(10); push_back(20);
push_back(30)` starting from a default-constructed list with sentinel 99. -/
def stateA3 : Heap × ListA :=
  let s1 := pushBackA heap0 ⟨none, 99⟩ 10
  let s2 := pushBackA s1.1 s1.2 20
  pushBackA s2.1 s2.2 30

/-- The `part_000` chain after the same three `push_back` calls. -/
def stateB3 : Heap × ListB :=
  let s1 := pushBackB heap0 ⟨99, 99⟩ 10
  let s2 := pushBackB s1.1 s1.2 20
  pushBackB s2.1 s2.2 30

/-!  ## Claims -/

/-- C2: on the chain `A = [1,2,3,4,5]` (both realizations), the self-splice
`splice(pos_of_5, A, pos_of_2, pos_of_4)` — moving the half-open range
`[2,4)` before the member 5 — produces the member sequence `[1,4,2,3,5]`. -/
theorem selfsplice_scenario :
    repA heap5 ⟨some 1, 6⟩ [1, 2, 3, 4, 5] ∧
    ((spliceA heap5 ⟨some 1, 6⟩ 5 ⟨some 1, 6⟩ 2 4).map
      (fun s => seqA s.1 s.2.1 5)) = some (some [1, 4, 2, 3, 5]) ∧
    repB heap5 ⟨1, 6⟩ [1, 2, 3, 4, 5] ∧
    ((spliceB heap5 ⟨1, 6⟩ 5 ⟨1, 6⟩ 2 4).map
      (fun s => seqB s.1 s.2.1 5)) = some (some [1, 4, 2, 3, 5]) := by
  refine ⟨by decide, by decide, by decide, by decide⟩

/-- C3: `unlink` in `part_000` is not idempotent.  On the chain 1 ↔ 2 ↔ 3,
the first `unlink` of 2 patches 1 but clears `next` before the second
guard, so 3 keeps its stale `prev = 2`; the second `unlink` of 2 then
overwrites 1's `next` with null — the neighbors' relations change again.
(`intrusive_list.h` does not have this slip.) -/
theorem unlinkB_not_idempotent :
    ((unlinkB heap3 2) 1).next = some 3 ∧
    ((unlinkB heap3 2) 3).prev = some 2 ∧
    ((unlinkB (unlinkB heap3 2) 2) 1).next = none := by
  refine ⟨by decide, by decide, by decide⟩

/-- C4 counterexample: `unlink` does not clear the link's own references.
After unlinking the middle of 1 ↔ 2 ↔ 3, node 2 still holds
`prev = 1, next = 3` in `intrusive_list.h`, and still holds `prev = 1` in
`part_000` — the claim's "both of this Link's own prev and next references
are cleared" is false at this input. -/
theorem unlink_does_not_clear :
    ((unlinkA heap3 2) 2).prev = some 1 ∧ ((unlinkA heap3 2) 2).next = some 3 ∧
    ((unlinkB heap3 2) 2).prev = some 1 := by
  refine ⟨by decide, by decide, by decide⟩

/-- C5 counterexample: an element removed by `erase` is not fully detached.
After erasing 20 from `[10,20,30]`, node 20 still holds
`prev = 10, next = 30` (in both realizations). -/
theorem erase_leaves_stale_pointers :
    ((eraseA heap123 ⟨some 10, 99⟩ 20).map (fun s => s.1 20)) =
      some ⟨some 10, some 30⟩ ∧
    ((eraseB heap123 ⟨10, 99⟩ 20).map (fun s => s.1 20)) =
      some ⟨some 10, some 30⟩ := by
  refine ⟨by decide, by decide⟩

/-- C6 counterexample: destroying (unlinking) the chain's first member does
not remove it from the iteration sequence — in `intrusive_list.h`, the
list's `first` field still points at the destroyed link, and forward
iteration still yields it (its own `next` is not cleared). -/
theorem destroyed_first_member_still_referenced :
    repA heap12 ⟨some 1, 9⟩ [1, 2] ∧
    seqA (unlinkA heap12 1) ⟨some 1, 9⟩ 2 = some [1, 2] := by
  refine ⟨by decide, by decide⟩

/-- C9: the two realizations are observably different.  Both start as the
represented one-member chain `[10]`; after `erase` of that sole member,
`empty()` returns `false` in `intrusive_list.h` (its `erase` sets `first`
to the sentinel's address instead of null) but `true` in `part_000`. -/
theorem impls_observably_differ :
    repA heapS ⟨some 10, 6⟩ [10] ∧ repB heapS ⟨10, 6⟩ [10] ∧
    ((eraseA heapS ⟨some 10, 6⟩ 10).map (fun s => decide (emptyA s.2.1))) =
      some false ∧
    ((eraseB heapS ⟨10, 6⟩ 10).map (fun s => decide (emptyB s.2.1))) =
      some true := by
  refine ⟨by decide, by decide, by decide, by decide⟩

/-- C10: `erase(end())` is a defined no-op in both realizations: the code
checks `pos != end()` and returns `end()` with the heap and the list
struct unchanged. -/
theorem erase_at_end_noop :
    ∀ (h : Heap) (cA : ListA) (cB : ListB),
      eraseA h cA (endA cA) = some (h, cA, endA cA) ∧
      eraseB h cB (endB cB) = some (h, cB, endB cB) := by
  intro h cA cB
  constructor
  · simp [eraseA, endA]
  · simp [eraseB, endB]

/-- C4 (amended): `unlink` in `intrusive_list.h` rewires the neighbors —
if a previous neighbor exists its `next` becomes this link's former
`next`, and if a next neighbor exists its `prev` becomes this link's
former `prev` — but the link's own `prev`/`next` fields are left
unchanged, not cleared.  (Stated for a link that is not its own
neighbor.) -/
theorem unlink_rewires_neighbors (h : Heap) (x : Ptr)
    (hp : (h x).prev ≠ some x) (hn : (h x).next ≠ some x) :
    (unlinkA h x) x = h x ∧
    (∀ p, (h x).prev = some p → ((unlinkA h x) p).next = (h x).next) ∧
    (∀ n, (h x).next = some n → ((unlinkA h x) n).prev = (h x).prev) := by
  cases hpe : (h x).prev with
  | none =>
      cases hne : (h x).next with
      | none =>
          have heval : unlinkA h x = h := by simp [unlinkA, hpe, hne]
          rw [heval]
          exact ⟨rfl, fun p hc => Option.noConfusion hc,
            fun m hc => Option.noConfusion hc⟩
      | some n =>
          have hxn : x ≠ n := fun hc => hn (by rw [hne, hc])
          have heval : unlinkA h x = setPrev h n none := by
            simp [unlinkA, hpe, hne]
          rw [heval]
          refine ⟨setPrev_other _ _ _ _ hxn, fun p hc => Option.noConfusion hc, ?_⟩
          intro m hc
          have := Option.some.inj hc
          subst this
          rw [setPrev_at]
  | some p =>
      have hxp : x ≠ p := fun hc => hp (by rw [hpe, hc])
      cases hne : (h x).next with
      | none =>
          have heval : unlinkA h x = setNext h p none := by
            simp [unlinkA, hpe, hne, setNext_other h p none x hxp]
          rw [heval]
          refine ⟨setNext_other _ _ _ _ hxp, ?_, fun m hc => Option.noConfusion hc⟩
          intro q hc
          have := Option.some.inj hc
          subst this
          rw [setNext_at]
      | some n =>
          have hxn : x ≠ n := fun hc => hn (by rw [hne, hc])
          have heval : unlinkA h x = setPrev (setNext h p (some n)) n (some p) := by
            simp [unlinkA, hpe, hne, setNext_other h p (some n) x hxp, setNext_prev]
          rw [heval]
          refine ⟨?_, ?_, ?_⟩
          · rw [setPrev_other _ _ _ _ hxn, setNext_other _ _ _ _ hxp]
          · intro q hc
            have := Option.some.inj hc
            subst this
            rw [setPrev_next, setNext_at]
          · intro m hc
            have := Option.some.inj hc
            subst this
            rw [setPrev_at]

theorem unlink_rewires_neighbors_witness :
    (heap3 2).prev ≠ some 2 ∧ (heap3 2).next ≠ some 2 ∧
    ((unlinkA heap3 2) 2 = heap3 2 ∧
      (∀ p, (heap3 2).prev = some p → ((unlinkA heap3 2) p).next = (heap3 2).next) ∧
      (∀ n, (heap3 2).next = some n → ((unlinkA heap3 2) n).prev = (heap3 2).prev)) :=
  ⟨by decide, by decide, unlink_rewires_neighbors heap3 2 (by decide) (by decide)⟩

/-- C5 (amended): `erase` at a member position keeps the remaining chain
consistent — iteration yields exactly the other members in order — but the
removed link is not detached: its own `prev`/`next` fields are left
unchanged, still aimed at its former neighbors (in both realizations). -/
theorem erase_consistent_but_not_detached :
    (∀ (h : Heap) (c : ListA) (l₁ l₂ : List Ptr) (x : Ptr),
      repA h c (l₁ ++ x :: l₂) →
      ∃ h' c', eraseA h c x = some (h', c', l₂.headD c.sent) ∧
        seqA h' c' (l₁ ++ l₂).length = some (l₁ ++ l₂) ∧
        h' x = h x ∧ (h' x).next = some (l₂.headD c.sent)) ∧
    (∀ (h : Heap) (c : ListB) (l₁ l₂ : List Ptr) (x : Ptr),
      repB h c (l₁ ++ x :: l₂) →
      ∃ h' c', eraseB h c x = some (h', c', l₂.headD c.sent) ∧
        seqB h' c' (l₁ ++ l₂).length = some (l₁ ++ l₂) ∧
        h' x = h x ∧ (h' x).next = some (l₂.headD c.sent)) := by
  constructor
  · intro h c l₁ l₂ x hrep
    have hxn : (h x).next = some (l₂.headD c.sent) := (linked_split hrep.2.1).2.2.1
    obtain ⟨h', c', heq, hx, hseq, _⟩ := eraseA_spec hrep
    exact ⟨h', c', heq, hseq, hx, by rw [hx]; exact hxn⟩
  · intro h c l₁ l₂ x hrep
    have hxn : (h x).next = some (l₂.headD c.sent) := (linked_split hrep.2.1).2.2.1
    obtain ⟨h', c', heq, hx, hrep'⟩ := eraseB_spec hrep
    exact ⟨h', c', heq, by simpa using repB_seq hrep', hx, by rw [hx]; exact hxn⟩

theorem erase_consistent_but_not_detached_witness :
    repA heap123 ⟨some 10, 99⟩ ([10] ++ 20 :: [30]) ∧
    repB heap123 ⟨10, 99⟩ ([10] ++ 20 :: [30]) ∧
    (∃ h' c', eraseA heap123 ⟨some 10, 99⟩ 20 = some (h', c', [30].headD 99) ∧
      seqA h' c' ([10] ++ [30]).length = some ([10] ++ [30]) ∧
      h' 20 = heap123 20 ∧ (h' 20).next = some ([30].headD 99)) ∧
    (∃ h' c', eraseB heap123 ⟨10, 99⟩ 20 = some (h', c', [30].headD 99) ∧
      seqB h' c' ([10] ++ [30]).length = some ([10] ++ [30]) ∧
      h' 20 = heap123 20 ∧ (h' 20).next = some ([30].headD 99)) :=
  ⟨by decide, by decide,
    erase_consistent_but_not_detached.1 heap123 ⟨some 10, 99⟩ [10] [30] 20 (by decide),
    erase_consistent_but_not_detached.2 heap123 ⟨10, 99⟩ [10] [30] 20 (by decide)⟩

/-- C6 (amended): in `intrusive_list.h`, destroying (unlinking) a member
that is not the chain's first member removes it from the chain: the
remaining members are again a fully represented chain (so the chain holds
no reference to the destroyed link) and iteration yields exactly the other
members in order.  (For the first member the chain's `first` field keeps
pointing at the destroyed link — see the counterexample — and in
`part_000` `unlink` itself mispatches the next neighbor.) -/
theorem destroy_nonfirst_removes_member :
    ∀ (h : Heap) (c : ListA) (l₁ l₂ : List Ptr) (x : Ptr),
      repA h c (l₁ ++ x :: l₂) → l₁ ≠ [] →
      repA (unlinkA h x) c (l₁ ++ l₂) ∧
      seqA (unlinkA h x) c (l₁ ++ l₂).length = some (l₁ ++ l₂) := by
  intro h c l₁ l₂ x hrep hne
  have hrep' := unlinkA_excise hrep hne
  exact ⟨hrep', repA_seq hrep'⟩

theorem destroy_nonfirst_removes_member_witness :
    repA heap123 ⟨some 10, 99⟩ ([10] ++ 20 :: [30]) ∧ ([10] : List Ptr) ≠ [] ∧
    (repA (unlinkA heap123 20) ⟨some 10, 99⟩ ([10] ++ [30]) ∧
      seqA (unlinkA heap123 20) ⟨some 10, 99⟩ ([10] ++ [30]).length =
        some ([10] ++ [30])) :=
  ⟨by decide, by decide,
    destroy_nonfirst_removes_member heap123 ⟨some 10, 99⟩ [10] [30] 20
      (by decide) (by decide)⟩

/-- C7: `erase` at a member position removes exactly that member — the
iteration sequence afterwards is the other members in unchanged order —
and returns the position that followed (`l₂`'s head, or `end()` when the
erased member was last).  Holds in both realizations, for any member
position of any represented chain. -/
theorem erase_removes_member :
    (∀ (h : Heap) (c : ListA) (l₁ l₂ : List Ptr) (x : Ptr),
      repA h c (l₁ ++ x :: l₂) →
      ∃ h' c', eraseA h c x = some (h', c', l₂.headD c.sent) ∧
        seqA h' c' (l₁ ++ l₂).length = some (l₁ ++ l₂)) ∧
    (∀ (h : Heap) (c : ListB) (l₁ l₂ : List Ptr) (x : Ptr),
      repB h c (l₁ ++ x :: l₂) →
      ∃ h' c', eraseB h c x = some (h', c', l₂.headD c.sent) ∧
        seqB h' c' (l₁ ++ l₂).length = some (l₁ ++ l₂)) := by
  constructor
  · intro h c l₁ l₂ x hrep
    obtain ⟨h', c', heq, _, hseq, _⟩ := eraseA_spec hrep
    exact ⟨h', c', heq, hseq⟩
  · intro h c l₁ l₂ x hrep
    obtain ⟨h', c', heq, _, hrep'⟩ := eraseB_spec hrep
    exact ⟨h', c', heq, by simpa using repB_seq hrep'⟩

theorem erase_removes_member_witness :
    repA stateA3.1 stateA3.2 ([10] ++ 20 :: [30]) ∧
    repB stateB3.1 stateB3.2 ([10] ++ 20 :: [30]) ∧
    beginA stateA3.2 = 10 ∧ (stateA3.1 (beginA stateA3.2)).next = some 20 ∧
    (∃ h' c', eraseA stateA3.1 stateA3.2 20 =
        some (h', c', [30].headD stateA3.2.sent) ∧
      seqA h' c' ([10] ++ [30]).length = some ([10] ++ [30])) ∧
    (∃ h' c', eraseB stateB3.1 stateB3.2 20 =
        some (h', c', [30].headD stateB3.2.sent) ∧
      seqB h' c' ([10] ++ [30]).length = some ([10] ++ [30])) :=
  ⟨by decide, by decide, by decide, by decide,
    erase_removes_member.1 stateA3.1 stateA3.2 [10] [30] 20 (by decide),
    erase_removes_member.2 stateB3.1 stateB3.2 [10] [30] 20 (by decide)⟩

/-- C1: a full-range splice `splice(pos, donor, donor.begin(), donor.end())`
from a distinct, non-empty donor leaves the donor empty and makes the
receiver's member sequence its original sequence with the donor's entire
original sequence inserted, in order, immediately before `pos`.  Holds in
both realizations. -/
theorem splice_full_transfers :
    (∀ (h : Heap) (recv donor : ListA) (r₁ r₂ dxs : List Ptr),
      repA h recv (r₁ ++ r₂) → repA h donor dxs → dxs ≠ [] →
      (∀ a ∈ r₁ ++ r₂, a ∉ dxs) → recv.sent ∉ dxs → donor.sent ∉ r₁ ++ r₂ →
      recv.sent ≠ donor.sent →
      ∃ h' recv' donor',
        spliceA h recv (r₂.headD recv.sent) donor (beginA donor) donor.sent =
          some (h', recv', donor') ∧
        repA h' recv' (r₁ ++ dxs ++ r₂) ∧
        seqA h' recv' (r₁ ++ dxs ++ r₂).length = some (r₁ ++ dxs ++ r₂) ∧
        emptyA donor' ∧ repA h' donor' []) ∧
    (∀ (h : Heap) (recv donor : ListB) (r₁ r₂ dxs : List Ptr),
      repB h recv (r₁ ++ r₂) → repB h donor dxs → dxs ≠ [] →
      (∀ a ∈ r₁ ++ r₂, a ∉ dxs) → recv.sent ∉ dxs → donor.sent ∉ r₁ ++ r₂ →
      recv.sent ≠ donor.sent →
      ∃ h' recv' donor',
        spliceB h recv (r₂.headD recv.sent) donor (beginB donor) donor.sent =
          some (h', recv', donor') ∧
        repB h' recv' (r₁ ++ dxs ++ r₂) ∧
        seqB h' recv' (r₁ ++ dxs ++ r₂).length = some (r₁ ++ dxs ++ r₂) ∧
        emptyB donor' ∧ repB h' donor' []) := by
  constructor
  · intro h recv donor r₁ r₂ dxs hrecv hdonor hne hdisj hrs hds hss
    obtain ⟨h', r', d', heq, hrep1, hrep0⟩ :=
      spliceA_spec hrecv hdonor hne hdisj hrs hds hss
    refine ⟨h', r', d', heq, hrep1, repA_seq hrep1, ?_, hrep0⟩
    have := hrep0.1
    simpa [emptyA] using this
  · intro h recv donor r₁ r₂ dxs hrecv hdonor hne hdisj hrs hds hss
    obtain ⟨h', r', d', heq, hrep1, hrep0⟩ :=
      spliceB_spec hrecv hdonor hne hdisj hrs hds hss
    refine ⟨h', r', d', heq, hrep1, repB_seq hrep1, ?_, hrep0⟩
    have := hrep0.1
    simpa [emptyB] using this

theorem splice_full_transfers_witness :
    repA heapPair ⟨some 1, 50⟩ ([1] ++ [2]) ∧ repA heapPair ⟨some 3, 60⟩ [3, 4] ∧
    repB heapPair ⟨1, 50⟩ ([1] ++ [2]) ∧ repB heapPair ⟨3, 60⟩ [3, 4] ∧
    (∃ h' recv' donor',
      spliceA heapPair ⟨some 1, 50⟩ ([2].headD 50) ⟨some 3, 60⟩
          (beginA ⟨some 3, 60⟩) 60 = some (h', recv', donor') ∧
      repA h' recv' ([1] ++ [3, 4] ++ [2]) ∧
      seqA h' recv' ([1] ++ [3, 4] ++ [2]).length = some ([1] ++ [3, 4] ++ [2]) ∧
      emptyA donor' ∧ repA h' donor' []) ∧
    (∃ h' recv' donor',
      spliceB heapPair ⟨1, 50⟩ ([2].headD 50) ⟨3, 60⟩ (beginB ⟨3, 60⟩) 60 =
        some (h', recv', donor') ∧
      repB h' recv' ([1] ++ [3, 4] ++ [2]) ∧
      seqB h' recv' ([1] ++ [3, 4] ++ [2]).length = some ([1] ++ [3, 4] ++ [2]) ∧
      emptyB donor' ∧ repB h' donor' []) :=
  ⟨by decide, by decide, by decide, by decide,
    splice_full_transfers.1 heapPair ⟨some 1, 50⟩ ⟨some 3, 60⟩ [1] [2] [3, 4]
      (by decide) (by decide) (by decide) (by decide) (by decide) (by decide)
      (by decide),
    splice_full_transfers.2 heapPair ⟨1, 50⟩ ⟨3, 60⟩ [1] [2] [3, 4]
      (by decide) (by decide) (by decide) (by decide) (by decide) (by decide)
      (by decide)⟩

/-- C8: move assignment and move construction transfer the source chain's
entire member sequence, in order, to the (empty) target, and leave the
source empty — for chains of any size, in both realizations.  In
`intrusive_list.h` the move constructor delegates to the move assignment. -/
theorem move_transfers_all :
    (∀ (h : Heap) (tgt other : ListA) (xs : List Ptr),
      repA h other xs → repA h tgt [] → tgt.sent ∉ xs → tgt.sent ≠ other.sent →
      repA (moveAssignA h tgt other).1 (moveAssignA h tgt other).2.1 xs ∧
      seqA (moveAssignA h tgt other).1 (moveAssignA h tgt other).2.1 xs.length =
        some xs ∧
      repA (moveAssignA h tgt other).1 (moveAssignA h tgt other).2.2 [] ∧
      emptyA (moveAssignA h tgt other).2.2 ∧
      moveConsA h tgt other = moveAssignA h tgt other) ∧
    (∀ (h : Heap) (tgt other : ListB) (xs : List Ptr),
      repB h other xs → tgt.sent ∉ xs → tgt.sent ≠ other.sent →
      ∃ h' tgt' other', moveAssignB h tgt other = some (h', tgt', other') ∧
        repB h' tgt' xs ∧ seqB h' tgt' xs.length = some xs ∧
        repB h' other' [] ∧ emptyB other') ∧
    (∀ (h : Heap) (tgt other : ListB) (xs : List Ptr),
      repB h tgt [] → repB h other xs → tgt.sent ∉ xs → tgt.sent ≠ other.sent →
      ∃ h' tgt' other', moveConsB h tgt other = some (h', tgt', other') ∧
        repB h' tgt' xs ∧ repB h' other' [] ∧ emptyB other') := by
  refine ⟨?_, ?_, ?_⟩
  · intro h tgt other xs hother htgt h1 h2
    obtain ⟨hr1, hr0⟩ := moveAssignA_spec hother htgt h1 h2
    refine ⟨hr1, repA_seq hr1, hr0, ?_, rfl⟩
    have := hr0.1
    simpa [emptyA] using this
  · intro h tgt other xs hother h1 h2
    obtain ⟨h', t', o', heq, hr1, hr0⟩ := moveAssignB_spec hother h1 h2
    refine ⟨h', t', o', heq, hr1, repB_seq hr1, hr0, ?_⟩
    have := hr0.1
    simpa [emptyB] using this
  · intro h tgt other xs htgt hother h1 h2
    obtain ⟨h', t', o', heq, hr1, hr0⟩ := moveConsB_spec htgt hother h1 h2
    refine ⟨h', t', o', heq, hr1, hr0, ?_⟩
    have := hr0.1
    simpa [emptyB] using this

theorem move_transfers_all_witness :
    repA heap123 ⟨some 10, 99⟩ [10, 20, 30] ∧ repA heap123 ⟨none, 77⟩ [] ∧
    repB heap123 ⟨10, 99⟩ [10, 20, 30] ∧ repB heap123 ⟨77, 77⟩ [] ∧
    (repA (moveAssignA heap123 ⟨none, 77⟩ ⟨some 10, 99⟩).1
        (moveAssignA heap123 ⟨none, 77⟩ ⟨some 10, 99⟩).2.1 [10, 20, 30] ∧
      seqA (moveAssignA heap123 ⟨none, 77⟩ ⟨some 10, 99⟩).1
        (moveAssignA heap123 ⟨none, 77⟩ ⟨some 10, 99⟩).2.1 [10, 20, 30].length =
          some [10, 20, 30] ∧
      repA (moveAssignA heap123 ⟨none, 77⟩ ⟨some 10, 99⟩).1
        (moveAssignA heap123 ⟨none, 77⟩ ⟨some 10, 99⟩).2.2 [] ∧
      emptyA (moveAssignA heap123 ⟨none, 77⟩ ⟨some 10, 99⟩).2.2 ∧
      moveConsA heap123 ⟨none, 77⟩ ⟨some 10, 99⟩ =
        moveAssignA heap123 ⟨none, 77⟩ ⟨some 10, 99⟩) ∧
    (∃ h' tgt' other', moveAssignB heap123 ⟨77, 77⟩ ⟨10, 99⟩ =
        some (h', tgt', other') ∧
      repB h' tgt' [10, 20, 30] ∧ seqB h' tgt' [10, 20, 30].length =
        some [10, 20, 30] ∧ repB h' other' [] ∧ emptyB other') ∧
    (∃ h' tgt' other', moveConsB heap123 ⟨77, 77⟩ ⟨10, 99⟩ =
        some (h', tgt', other') ∧
      repB h' tgt' [10, 20, 30] ∧ repB h' other' [] ∧ emptyB other') :=
  ⟨by decide, by decide, by decide, by decide,
    move_transfers_all.1 heap123 ⟨none, 77⟩ ⟨some 10, 99⟩ [10, 20, 30]
      (by decide) (by decide) (by decide) (by decide),
    move_transfers_all.2.1 heap123 ⟨77, 77⟩ ⟨10, 99⟩ [10, 20, 30]
      (by decide) (by decide) (by decide),
    move_transfers_all.2.2 heap123 ⟨77, 77⟩ ⟨10, 99⟩ [10, 20, 30]
      (by decide) (by decide) (by decide) (by decide)⟩

end Intrusive

